import Mathlib

/-!
# Verification of the ray_db transactional storage core

Shallow embedding of the repository's storage layer:

* `src/storage/keycode.rs` — the order-preserving key codec
  (escape-terminated byte strings, big-endian `u64`, one-byte variant tag);
* `src/storage/mvcc.rs` — the MVCC transaction manager
  (`MvccKey`, visibility, `write_inner`, `get`, `commit`, `rollback`);
* `src/storage/engine.rs` — the ordered key/value engine interface
  (`scan`, `scan_prefix` with the last-byte-increment upper bound);
* `src/storage/disk.rs` — the append-only log engine
  (`write_entry`, `build_keydir`, `set`/`get`/`delete`).

Bytes are modelled as `Nat` (values below 256 where it matters, stated as
hypotheses), byte strings as `List Nat`, and machine integers as `Nat` with
explicit bounds.  The ordered maps (`BTreeMap`) are modelled as association
lists strictly sorted by the lexicographic byte order `keyLt`.
-/

namespace RayDb

/-- Lexicographic strict order on byte strings, as `Ord` on Rust `Vec<u8>`
compares keys inside `BTreeMap`. -/
def keyLt : List Nat → List Nat → Bool
  | [], [] => false
  | [], _ :: _ => true
  | _ :: _, [] => false
  | a :: as, b :: bs => a < b || (a == b && keyLt as bs)

theorem keyLt_nil_cons (b : Nat) (bs : List Nat) : keyLt [] (b :: bs) = true := rfl

theorem keyLt_nil_right (a : List Nat) : keyLt a [] = false := by
  cases a <;> rfl

theorem keyLt_cons (a b : Nat) (as bs : List Nat) :
    keyLt (a :: as) (b :: bs) = (a < b || (a == b && keyLt as bs)) := rfl

theorem keyLt_irrefl (a : List Nat) : keyLt a a = false := by
  induction a with
  | nil => rfl
  | cons x xs ih => simp [keyLt_cons, ih]

theorem keyLt_trans {a b c : List Nat} (h₁ : keyLt a b = true) (h₂ : keyLt b c = true) :
    keyLt a c = true := by
  induction a generalizing b c with
  | nil =>
    cases b with
    | nil => exact absurd h₁ (by simp [keyLt])
    | cons y ys =>
      cases c with
      | nil => exact absurd h₂ (by simp [keyLt_nil_right])
      | cons z zs => rfl
  | cons x xs ih =>
    cases b with
    | nil => exact absurd h₁ (by simp [keyLt_nil_right])
    | cons y ys =>
      cases c with
      | nil => exact absurd h₂ (by simp [keyLt_nil_right])
      | cons z zs =>
        simp only [keyLt_cons, Bool.or_eq_true, Bool.and_eq_true, beq_iff_eq,
          decide_eq_true_eq] at h₁ h₂ ⊢
        rcases h₁ with h₁ | ⟨rfl, h₁⟩
        · rcases h₂ with h₂ | ⟨rfl, _⟩
          · exact Or.inl (h₁.trans h₂)
          · exact Or.inl h₁
        · rcases h₂ with h₂ | ⟨rfl, h₂⟩
          · exact Or.inl h₂
          · exact Or.inr ⟨rfl, ih h₁ h₂⟩

theorem keyLt_total {a b : List Nat} (h : a ≠ b) :
    keyLt a b = true ∨ keyLt b a = true := by
  induction a generalizing b with
  | nil =>
    cases b with
    | nil => exact absurd rfl h
    | cons y ys => exact Or.inl rfl
  | cons x xs ih =>
    cases b with
    | nil => exact Or.inr rfl
    | cons y ys =>
      by_cases hxy : x = y
      · subst hxy
        have hne : xs ≠ ys := fun hs => h (by rw [hs])
        rcases ih hne with h' | h'
        · exact Or.inl (by simp [keyLt_cons, h'])
        · exact Or.inr (by simp [keyLt_cons, h'])
      · rcases Nat.lt_or_ge x y with hlt | hge
        · exact Or.inl (by simp [keyLt_cons, hlt])
        · have : y < x := lt_of_le_of_ne hge (Ne.symm hxy)
          exact Or.inr (by simp [keyLt_cons, this])

theorem keyLt_asymm {a b : List Nat} (h : keyLt a b = true) : keyLt b a = false := by
  by_contra hc
  have hba : keyLt b a = true := by
    cases hv : keyLt b a with
    | false => exact absurd hv hc
    | true => rfl
  have := keyLt_trans h hba
  rw [keyLt_irrefl] at this
  exact absurd this (by simp)

/-- `¬ (b < a)` means `a = b` or `a < b`: trichotomy for `keyLt`. -/
theorem keyLt_not_lt_iff {a b : List Nat} :
    keyLt b a = false ↔ (a = b ∨ keyLt a b = true) := by
  constructor
  · intro h
    by_cases hab : a = b
    · exact Or.inl hab
    · rcases keyLt_total hab with h' | h'
      · exact Or.inr h'
      · rw [h'] at h; exact absurd h (by simp)
  · rintro (rfl | h)
    · exact keyLt_irrefl a
    · exact keyLt_asymm h

theorem keyLt_append_same (p x y : List Nat) :
    keyLt (p ++ x) (p ++ y) = keyLt x y := by
  induction p with
  | nil => rfl
  | cons a as ih => simp [keyLt_cons, ih]

/-! ## Big-endian integers (`Serializer::serialize_u64`, `u64::to_be_bytes`) -/

/-- The `n` big-endian base-256 digits of `v` (most significant first);
`beN 8 v` is `v.to_be_bytes()` for `v < 2^64`. -/
def beN : Nat → Nat → List Nat
  | 0, _ => []
  | n + 1, v => (v / 256 ^ n) :: beN n (v % 256 ^ n)

/-- `u64::to_be_bytes`: 8 big-endian bytes. -/
def be8 (v : Nat) : List Nat := beN 8 v

theorem beN_length (n v : Nat) : (beN n v).length = n := by
  induction n generalizing v with
  | zero => rfl
  | succ n ih => simp [beN, ih]

theorem be8_length (v : Nat) : (be8 v).length = 8 := beN_length 8 v

/-- Big-endian digits compare lexicographically as the numbers compare. -/
theorem keyLt_beN {n v₁ v₂ : Nat} (h₁ : v₁ < 256 ^ n) (h₂ : v₂ < 256 ^ n) :
    keyLt (beN n v₁) (beN n v₂) = decide (v₁ < v₂) := by
  induction n generalizing v₁ v₂ with
  | zero =>
    interval_cases v₁
    interval_cases v₂
    rfl
  | succ n ih =>
    have hm₁ : v₁ % 256 ^ n < 256 ^ n := Nat.mod_lt _ (Nat.pos_pow_of_pos n (by norm_num))
    have hm₂ : v₂ % 256 ^ n < 256 ^ n := Nat.mod_lt _ (Nat.pos_pow_of_pos n (by norm_num))
    simp only [beN, keyLt_cons, ih hm₁ hm₂]
    by_cases hq : v₁ / 256 ^ n = v₂ / 256 ^ n
    · have : (v₁ < v₂) ↔ (v₁ % 256 ^ n < v₂ % 256 ^ n) := by
        have e₁ := Nat.div_add_mod v₁ (256 ^ n)
        have e₂ := Nat.div_add_mod v₂ (256 ^ n)
        rw [hq] at e₁
        omega
      simp [hq, this]
    · rcases Nat.lt_or_ge (v₁ / 256 ^ n) (v₂ / 256 ^ n) with hlt | hge
      · have hv : v₁ < v₂ := Nat.lt_of_div_lt_div hlt
        simp [hlt, hv, Nat.ne_of_lt hlt]
      · have hgt : v₂ / 256 ^ n < v₁ / 256 ^ n := lt_of_le_of_ne hge (Ne.symm hq)
        have hv : ¬ (v₁ < v₂) := fun hc => Nat.lt_irrefl _
          (Nat.lt_of_lt_of_le hgt (Nat.div_le_div_right (Nat.le_of_lt hc)))
        simp [Nat.lt_asymm hgt, hv, hq]

theorem beN_inj {n v₁ v₂ : Nat} (h₁ : v₁ < 256 ^ n) (h₂ : v₂ < 256 ^ n)
    (h : beN n v₁ = beN n v₂) : v₁ = v₂ := by
  by_contra hne
  rcases Nat.lt_or_ge v₁ v₂ with hlt | hge
  · have := keyLt_beN h₁ h₂
    rw [h, keyLt_irrefl] at this
    simp [hlt] at this
  · have hgt : v₂ < v₁ := lt_of_le_of_ne hge (Ne.symm hne)
    have := keyLt_beN h₂ h₁
    rw [h, keyLt_irrefl] at this
    simp [hgt] at this

/-- `u64::from_be_bytes`, as a fold over the digit list. -/
def beVal (l : List Nat) : Nat := l.foldl (fun acc b => acc * 256 + b) 0

theorem beVal_foldl_acc (l : List Nat) (a : Nat) :
    l.foldl (fun acc b => acc * 256 + b) a = a * 256 ^ l.length + beVal l := by
  induction l generalizing a with
  | nil => simp [beVal]
  | cons x xs ih =>
    have h0 : beVal (x :: xs) = x * 256 ^ xs.length + beVal xs := by
      show List.foldl _ ((0 : Nat) * 256 + x) xs = _
      rw [show (0 : Nat) * 256 + x = x by ring]
      exact ih x
    rw [List.foldl_cons, ih, h0, List.length_cons]
    ring

theorem beVal_beN {n v : Nat} (h : v < 256 ^ n) : beVal (beN n v) = v := by
  induction n generalizing v with
  | zero => interval_cases v; rfl
  | succ n ih =>
    have hm : v % 256 ^ n < 256 ^ n := Nat.mod_lt _ (Nat.pos_pow_of_pos n (by norm_num))
    simp only [beN, beVal, List.foldl_cons]
    rw [show (0 : Nat) * 256 + v / 256 ^ n = v / 256 ^ n by ring]
    rw [beVal_foldl_acc, beN_length]
    have hv : beVal (beN n (v % 256 ^ n)) = v % 256 ^ n := ih hm
    rw [hv]
    exact Nat.div_add_mod' v (256 ^ n)

/-! ## Escape-terminated byte strings (`Serializer::serialize_bytes`) -/

/-- Escape of a single byte: `0x00` becomes `0x00 0xFF`, anything else passes through. -/
def escByte (b : Nat) : List Nat := if b = 0 then [0, 255] else [b]

/-- Escape of a byte string (without the terminator). -/
def escBytes : List Nat → List Nat
  | [] => []
  | b :: bs => escByte b ++ escBytes bs

theorem escByte_zero : escByte 0 = [0, 255] := rfl

theorem escByte_ne {b : Nat} (h : b ≠ 0) : escByte b = [b] := if_neg h

/-- `Serializer::serialize_bytes`: escape every `0x00` as `0x00 0xFF` and
terminate with `0x00 0x00`. -/
def serialize_bytes (v : List Nat) : List Nat := escBytes v ++ [0, 0]

theorem escBytes_append (x y : List Nat) :
    escBytes (x ++ y) = escBytes x ++ escBytes y := by
  induction x with
  | nil => rfl
  | cons b bs ih => simp [escBytes, ih]

/-- Comparing two escaped-and-terminated byte strings (each followed by an
arbitrary tail) is comparing the original strings, whenever they differ. -/
theorem keyLt_esc {k₁ k₂ : List Nat} (t₁ t₂ : List Nat) (hne : k₁ ≠ k₂) :
    keyLt (escBytes k₁ ++ 0 :: 0 :: t₁) (escBytes k₂ ++ 0 :: 0 :: t₂) = keyLt k₁ k₂ := by
  induction k₁ generalizing k₂ with
  | nil =>
    cases k₂ with
    | nil => exact absurd rfl hne
    | cons b bs =>
      by_cases hb : b = 0
      · subst hb
        simp [escBytes, escByte, keyLt_cons, keyLt_nil_cons]
      · have hb' : 0 < b := Nat.pos_of_ne_zero hb
        simp [escBytes, escByte, hb, keyLt_cons, hb', keyLt_nil_cons]
  | cons a as ih =>
    cases k₂ with
    | nil =>
      by_cases ha : a = 0
      · subst ha
        simp [escBytes, escByte, keyLt_cons, keyLt_nil_right]
      · simp [escBytes, escByte, ha, keyLt_cons, keyLt_nil_right, Nat.pos_of_ne_zero ha,
          Ne.symm ha]
    | cons b bs =>
      by_cases hab : a = b
      · subst hab
        have hne' : as ≠ bs := fun hc => hne (by rw [hc])
        by_cases ha : a = 0
        · subst ha
          simp [escBytes, escByte, keyLt_cons, ih hne']
        · simp [escBytes, escByte, ha, keyLt_cons, ih hne']
      · by_cases ha : a = 0
        · subst ha
          have hb : 0 < b := Nat.pos_of_ne_zero (Ne.symm hab)
          simp [escBytes, escByte, hab, keyLt_cons, hb, Ne.symm hab]
        · by_cases hb : b = 0
          · subst hb
            have he : (a == 0) = false := by simp [ha]
            simp [escBytes, escByte, ha, keyLt_cons, he, Nat.not_lt_zero]
          · have he : (a == b) = false := by simp [hab]
            simp [escBytes, escByte, ha, hb, keyLt_cons, he]

/-- Prefix correctness of the escape encoding: `escBytes p` is a prefix of an
escaped-and-terminated `k` (followed by an arbitrary tail) exactly when `p` is
a prefix of `k`. -/
theorem escBytes_isPfx (p : List Nat) : ∀ (k t : List Nat),
    (escBytes p <+: escBytes k ++ 0 :: 0 :: t) ↔ p <+: k := by
  induction p with
  | nil => intro k t; simp [escBytes]
  | cons a as ih =>
    intro k t
    cases k with
    | nil =>
      constructor
      · intro h
        exfalso
        by_cases ha : a = 0
        · subst ha
          simp only [escBytes, escByte_zero, List.nil_append, List.cons_append,
            List.cons_prefix_cons] at h
          exact absurd h.2.1 (by norm_num)
        · simp only [escBytes, escByte_ne ha, List.nil_append, List.cons_append,
            List.cons_prefix_cons] at h
          exact ha h.1
      · intro h
        exact absurd h (by simp)
    | cons b bs =>
      by_cases hab : a = b
      · subst hab
        by_cases ha : a = 0
        · subst ha
          simp only [escBytes, escByte_zero, List.cons_append, List.nil_append,
            List.append_assoc, List.cons_prefix_cons]
          simp [ih bs t]
        · simp only [escBytes, escByte_ne ha, List.cons_append, List.nil_append,
            List.append_assoc, List.cons_prefix_cons]
          simp [ih bs t]
      · constructor
        · intro h
          exfalso
          by_cases ha : a = 0
          · subst ha
            have hb : b ≠ 0 := Ne.symm hab
            simp only [escBytes, escByte_zero, escByte_ne hb, List.cons_append,
              List.nil_append, List.cons_prefix_cons] at h
            exact hb h.1.symm
          · by_cases hb : b = 0
            · subst hb
              simp only [escBytes, escByte_ne ha, escByte_zero, List.cons_append,
                List.nil_append, List.cons_prefix_cons] at h
              exact ha h.1
            · simp only [escBytes, escByte_ne ha, escByte_ne hb, List.cons_append,
                List.nil_append, List.cons_prefix_cons] at h
              exact hab h.1
        · intro h
          rw [List.cons_prefix_cons] at h
          exact absurd h.1 hab

/-! ## MVCC keys (`MvccKey`, `MvccKeyPrefix`) and their encodings -/

/-- `MvccKey` from `src/storage/mvcc.rs`. -/
inductive MvccKey where
  | NextVersion : MvccKey
  | TxnActive : Nat → MvccKey
  | TxnWrite : Nat → List Nat → MvccKey
  | Version : List Nat → Nat → MvccKey
deriving DecidableEq

/-- `MvccKey::encode` via `serialize_key`: one-byte variant tag, `u64` as
8 big-endian bytes, byte strings escape-terminated. -/
def MvccKey.encode : MvccKey → List Nat
  | .NextVersion => [0]
  | .TxnActive v => 1 :: be8 v
  | .TxnWrite v k => 2 :: (be8 v ++ serialize_bytes k)
  | .Version k v => 3 :: (serialize_bytes k ++ be8 v)

/-- `MvccKeyPrefix` from `src/storage/mvcc.rs` (named `Pfx` here). -/
inductive MvccKeyPfx where
  | NextVersion : MvccKeyPfx
  | TxnActive : MvccKeyPfx
  | TxnWrite : Nat → MvccKeyPfx
  | Version : List Nat → MvccKeyPfx

/-- `MvccKeyPrefix::encode` via `serialize_key`. -/
def MvccKeyPfx.encode : MvccKeyPfx → List Nat
  | .NextVersion => [0]
  | .TxnActive => [1]
  | .TxnWrite v => 2 :: be8 v
  | .Version k => 3 :: serialize_bytes k

/-- Wellformedness of a logical `MvccKey`: version components fit in `u64` and
key payloads are genuine bytes. -/
def MvccKey.WF : MvccKey → Prop
  | .NextVersion => True
  | .TxnActive v => v < 2 ^ 64
  | .TxnWrite v k => v < 2 ^ 64 ∧ ∀ b ∈ k, b < 256
  | .Version k v => v < 2 ^ 64 ∧ ∀ b ∈ k, b < 256

instance : DecidablePred MvccKey.WF := by
  intro k
  cases k <;> simp only [MvccKey.WF] <;> infer_instance

/-! ## Errors (`src/error.rs`) and the key deserializer -/

/-- `Error` from `src/error.rs`.  Both `Deserializer::next_bytes` and the
`serde::de::Error` impl construct `Error::Internal`; `Error::Parse` is only
built from SQL-side conversions. -/
inductive Error where
  | Parse : String → Error
  | Internal : String → Error
  | WriteConflict : Error
deriving DecidableEq

/-- Outcome of a deserializer step: a value plus the remaining input, an
`Error`, or a Rust panic (out-of-range slice in `take_bytes`). -/
inductive DeOut (α : Type) where
  | ok : α → List Nat → DeOut α
  | err : Error → DeOut α
  | panic : DeOut α
deriving DecidableEq

/-- `Deserializer::take_bytes`: `&self.input[..len]` panics when the input is
shorter than `len`. -/
def take_bytes (input : List Nat) (len : Nat) : DeOut (List Nat) :=
  if len ≤ input.length then .ok (input.take len) (input.drop len) else .panic

/-- `Deserializer::next_bytes`: un-escape until the `0x00 0x00` terminator;
`0x00` followed by anything else (or end of input) is
`Error::Internal("Unexpected input")`. -/
def next_bytes : List Nat → DeOut (List Nat)
  | 0 :: 0 :: rest => .ok [] rest
  | 0 :: 255 :: rest =>
    match next_bytes rest with
    | .ok res rest' => .ok (0 :: res) rest'
    | .err e => .err e
    | .panic => .panic
  | 0 :: _ :: _ => .err (.Internal "Unexpected input")
  | [0] => .err (.Internal "Unexpected input")
  | [] => .err (.Internal "Unexpected input")
  | b :: rest =>
    match next_bytes rest with
    | .ok res rest' => .ok (b :: res) rest'
    | .err e => .err e
    | .panic => .panic

/-- `Deserializer::deserialize_u64`: take 8 bytes, big-endian. -/
def de_u64 (input : List Nat) : DeOut Nat :=
  match take_bytes input 8 with
  | .ok bytes rest => .ok (beVal bytes) rest
  | .err e => .err e
  | .panic => .panic

/-- `deserialize_key::<MvccKey>`: read the one-byte variant tag
(`EnumAccess::variant_seed`, panics on empty input), then the fields in
declaration order; an out-of-range tag surfaces through
`serde::de::Error::custom` as `Error::Internal`. -/
def deserialize_mvcc_key (input : List Nat) : DeOut MvccKey :=
  match take_bytes input 1 with
  | .ok [t] rest =>
    if t = 0 then .ok .NextVersion rest
    else if t = 1 then
      match de_u64 rest with
      | .ok v r => .ok (.TxnActive v) r
      | .err e => .err e
      | .panic => .panic
    else if t = 2 then
      match de_u64 rest with
      | .ok v r =>
        match next_bytes r with
        | .ok k r' => .ok (.TxnWrite v k) r'
        | .err e => .err e
        | .panic => .panic
      | .err e => .err e
      | .panic => .panic
    else if t = 3 then
      match next_bytes rest with
      | .ok k r =>
        match de_u64 r with
        | .ok v r' => .ok (.Version k v) r'
        | .err e => .err e
        | .panic => .panic
      | .err e => .err e
      | .panic => .panic
    else .err (.Internal "invalid variant index")
  | .ok _ _ => .panic
  | .err e => .err e
  | .panic => .panic

/-- `MvccKey::decode` discards the unconsumed remainder of the input. -/
def MvccKey.decode (data : List Nat) : DeOut MvccKey :=
  match deserialize_mvcc_key data with
  | .ok k _ => .ok k []
  | .err e => .err e
  | .panic => .panic

theorem take_bytes_append (l : List Nat) (n : Nat) (rest : List Nat) (h : l.length = n) :
    take_bytes (l ++ rest) n = .ok l rest := by
  subst h
  rw [take_bytes, if_pos]
  · rw [List.take_left, List.drop_left]
  · simp

theorem de_u64_be8 {v : Nat} (rest : List Nat) (hv : v < 2 ^ 64) :
    de_u64 (be8 v ++ rest) = .ok v rest := by
  rw [de_u64, take_bytes_append (be8 v) 8 rest (be8_length v)]
  have hb : beVal (be8 v) = v := beVal_beN (by norm_num at hv ⊢; exact hv)
  simp [hb]

theorem next_bytes_esc : ∀ (k rest : List Nat),
    next_bytes (escBytes k ++ 0 :: 0 :: rest) = .ok k rest := by
  intro k
  induction k with
  | nil => intro rest; rfl
  | cons b bs ih =>
    intro rest
    by_cases hb : b = 0
    · subst hb
      simp [escBytes, escByte_zero, next_bytes, ih]
    · obtain ⟨n, rfl⟩ := Nat.exists_eq_succ_of_ne_zero hb
      simp [escBytes, escByte_ne hb, next_bytes, ih]

/-- Codec round-trip at the `MvccKey` level. -/
theorem deserialize_serialize {x : MvccKey} (h : MvccKey.WF x) :
    deserialize_mvcc_key x.encode = .ok x [] := by
  cases x with
  | NextVersion => rfl
  | TxnActive v =>
    have hv : v < 2 ^ 64 := h
    show deserialize_mvcc_key ([1] ++ be8 v) = .ok (.TxnActive v) []
    rw [deserialize_mvcc_key, take_bytes_append [1] 1 (be8 v) rfl]
    have h8 : de_u64 (be8 v) = .ok v [] := by
      have := de_u64_be8 [] hv
      rwa [List.append_nil] at this
    simp [h8]
  | TxnWrite v k =>
    have hv : v < 2 ^ 64 := h.1
    show deserialize_mvcc_key ([2] ++ (be8 v ++ serialize_bytes k)) = .ok (.TxnWrite v k) []
    rw [deserialize_mvcc_key, take_bytes_append [2] 1 _ rfl]
    have hsb : serialize_bytes k = escBytes k ++ [0, 0] := rfl
    have hd : de_u64 (be8 v ++ (escBytes k ++ [0, 0])) = .ok v (escBytes k ++ [0, 0]) :=
      de_u64_be8 _ hv
    have hn : next_bytes (escBytes k ++ [0, 0]) = .ok k [] := next_bytes_esc k []
    simp [hsb, hd, hn]
  | Version k v =>
    have hv : v < 2 ^ 64 := h.1
    show deserialize_mvcc_key ([3] ++ (serialize_bytes k ++ be8 v)) = .ok (.Version k v) []
    rw [deserialize_mvcc_key, take_bytes_append [3] 1 _ rfl]
    have hsb : serialize_bytes k ++ be8 v = escBytes k ++ 0 :: 0 :: be8 v := by
      simp [serialize_bytes]
    have hn : next_bytes (escBytes k ++ 0 :: 0 :: be8 v) = .ok k (be8 v) := next_bytes_esc k _
    have h8 : de_u64 (be8 v) = .ok v [] := by
      have := de_u64_be8 [] hv
      rwa [List.append_nil] at this
    simp [hsb, hn, h8]

theorem lt_pow64 {v : Nat} (h : v < 2 ^ 64) : v < 256 ^ 8 := by
  norm_num at h ⊢
  exact h

/-- The byte prefix `MvccTransaction::scan_prefix` passes to the engine:
encode `MvccKeyPrefix::Version(p)` and truncate the trailing two bytes. -/
def txnScanPfxArg (p : List Nat) : List Nat :=
  let ep := (MvccKeyPfx.Version p).encode
  ep.take (ep.length - 2)

theorem txnScanPfxArg_eq (p : List Nat) : txnScanPfxArg p = 3 :: escBytes p := by
  show (3 :: (escBytes p ++ [0, 0])).take ((3 :: (escBytes p ++ [0, 0])).length - 2)
      = 3 :: escBytes p
  have hl : (3 :: (escBytes p ++ [0, 0])).length - 2 = (escBytes p).length + 1 := by
    simp
  rw [hl, List.take_succ_cons, ← List.take_left (escBytes p) [0, 0]]
  simp

/-- Same logical key: encoded `Version` records compare as their versions. -/
theorem keyLt_verEnc_same (k : List Nat) {v₁ v₂ : Nat} (h₁ : v₁ < 2 ^ 64) (h₂ : v₂ < 2 ^ 64) :
    keyLt (MvccKey.Version k v₁).encode (MvccKey.Version k v₂).encode = decide (v₁ < v₂) := by
  show keyLt (3 :: (serialize_bytes k ++ be8 v₁)) (3 :: (serialize_bytes k ++ be8 v₂)) = _
  rw [keyLt_cons, keyLt_append_same]
  rw [show be8 v₁ = beN 8 v₁ from rfl, show be8 v₂ = beN 8 v₂ from rfl,
    keyLt_beN (lt_pow64 h₁) (lt_pow64 h₂)]
  simp

/-- Distinct logical keys: encoded `Version` records compare as the keys. -/
theorem keyLt_verEnc_ne {k₁ k₂ : List Nat} (v₁ v₂ : Nat) (hne : k₁ ≠ k₂) :
    keyLt (MvccKey.Version k₁ v₁).encode (MvccKey.Version k₂ v₂).encode = keyLt k₁ k₂ := by
  show keyLt (3 :: (serialize_bytes k₁ ++ be8 v₁)) (3 :: (serialize_bytes k₂ ++ be8 v₂))
      = keyLt k₁ k₂
  rw [keyLt_cons]
  have e₁ : serialize_bytes k₁ ++ be8 v₁ = escBytes k₁ ++ 0 :: 0 :: be8 v₁ := by
    simp [serialize_bytes]
  have e₂ : serialize_bytes k₂ ++ be8 v₂ = escBytes k₂ ++ 0 :: 0 :: be8 v₂ := by
    simp [serialize_bytes]
  rw [e₁, e₂, keyLt_esc _ _ hne]
  simp

/-! ## Claims C3, C4, C5 -/

/-- C3: the key encoding is order-preserving.  For a fixed logical key,
`encode(Version(k, v₁)) < encode(Version(k, v₂))` lexicographically iff
`v₁ < v₂`; for distinct logical keys, `encode(Version(k₁, v₁)) <
encode(Version(k₂, v₂))` iff `k₁ < k₂` lexicographically (versions as 8
big-endian bytes, byte payloads escape-terminated). -/
theorem C3_codec_order (k k₁ k₂ : List Nat) (v₁ v₂ : Nat)
    (hv₁ : v₁ < 2 ^ 64) (hv₂ : v₂ < 2 ^ 64) (hne : k₁ ≠ k₂) :
    (keyLt (MvccKey.Version k v₁).encode (MvccKey.Version k v₂).encode = true ↔ v₁ < v₂) ∧
    keyLt (MvccKey.Version k₁ v₁).encode (MvccKey.Version k₂ v₂).encode = keyLt k₁ k₂ := by
  constructor
  · rw [keyLt_verEnc_same k hv₁ hv₂]
    simp
  · exact keyLt_verEnc_ne v₁ v₂ hne

theorem C3_codec_order_witness :
    (1 : Nat) < 2 ^ 64 ∧ (2 : Nat) < 2 ^ 64 ∧ ([97] : List Nat) ≠ [98] ∧
    ((keyLt (MvccKey.Version [97] 1).encode (MvccKey.Version [97] 2).encode = true ↔ 1 < 2) ∧
      keyLt (MvccKey.Version [97] 1).encode (MvccKey.Version [98] 2).encode = keyLt [97] [98]) :=
  ⟨by norm_num, by norm_num, by decide,
    C3_codec_order [97] [97] [98] 1 2 (by norm_num) (by norm_num) (by decide)⟩

/-- C4: prefix correctness.  `k` starts with `p` iff the encoding of
`Version(k, v)` starts with the truncated encoding of
`MvccKeyPrefix::Version(p)` — which is by definition (`txnScanPfxArg`)
exactly the byte prefix `MvccTransaction::scan_prefix` hands to the engine. -/
theorem C4_scan_pfx_correct (p k : List Nat) (v : Nat) :
    (p <+: k) ↔ (txnScanPfxArg p <+: (MvccKey.Version k v).encode) := by
  rw [txnScanPfxArg_eq]
  show _ ↔ (3 :: escBytes p <+: 3 :: (serialize_bytes k ++ be8 v))
  have e : serialize_bytes k ++ be8 v = escBytes k ++ 0 :: 0 :: be8 v := by
    simp [serialize_bytes]
  rw [e, List.cons_prefix_cons]
  simp [escBytes_isPfx]

/-- C5: codec round-trip.  For every wellformed `MvccKey`,
`deserialize_key (serialize_key x)` succeeds and returns `x` (consuming the
whole input). -/
theorem C5_codec_roundtrip (x : MvccKey) (h : MvccKey.WF x) :
    deserialize_mvcc_key (MvccKey.encode x) = .ok x [] :=
  deserialize_serialize h

theorem C5_codec_roundtrip_witness :
    MvccKey.WF (MvccKey.TxnWrite 1 [1, 2, 3]) ∧
    deserialize_mvcc_key (MvccKey.encode (MvccKey.TxnWrite 1 [1, 2, 3]))
      = .ok (.TxnWrite 1 [1, 2, 3]) [] :=
  ⟨⟨by norm_num, by decide⟩, C5_codec_roundtrip _ ⟨by norm_num, by decide⟩⟩

/-! ## The ordered engine (`src/storage/engine.rs`)

A `BTreeMap<Vec<u8>, α>` is modelled as an association list strictly sorted
by `keyLt`.  `scan` over a range and the default `scan_prefix` (increment the
last byte of the prefix to obtain the excluded upper bound) are modelled
directly; `BTreeMap::range` panics when the range start exceeds its end, and
the `u8` increment overflows at `0xFF`, both modelled as `none`. -/

/-- Insertion keeping the list sorted (a `BTreeMap::insert`). -/
def alInsert {α : Type} : List (List Nat × α) → List Nat → α → List (List Nat × α)
  | [], k, v => [(k, v)]
  | (k', v') :: rest, k, v =>
    if keyLt k k' then (k, v) :: (k', v') :: rest
    else if k = k' then (k, v) :: rest
    else (k', v') :: alInsert rest k v

/-- `BTreeMap::remove` (by key). -/
def alRemove {α : Type} (s : List (List Nat × α)) (k : List Nat) : List (List Nat × α) :=
  s.filter (fun kv => !(kv.1 == k))

/-- `BTreeMap::get`. -/
def alGet {α : Type} (s : List (List Nat × α)) (k : List Nat) : Option α :=
  (s.find? (fun kv => kv.1 == k)).map (·.2)

/-- Strictly-sorted invariant of the association list. -/
def alSorted {α : Type} (s : List (List Nat × α)) : Prop :=
  List.Pairwise (fun a b => keyLt a.1 b.1 = true) s

/-- `scan(from ..= to)`: `BTreeMap::range` panics (`none`) when the inclusive
start exceeds the inclusive end, otherwise yields the entries in the range in
ascending key order. -/
def scanII {α : Type} (s : List (List Nat × α)) (lo hi : List Nat) :
    Option (List (List Nat × α)) :=
  if keyLt hi lo then none
  else some (s.filter (fun kv => !keyLt kv.1 lo && !keyLt hi kv.1))

/-- Increment of the last byte of the prefix (`Engine::scan_prefix`); `none`
models the `u8` overflow panic at a trailing `0xFF`. -/
def incLast : List Nat → Option (List Nat)
  | [] => some []
  | [b] => if b = 255 then none else some [b + 1]
  | b :: rest => (incLast rest).map (fun r => b :: r)

/-- `Engine::scan_prefix`: scan `[p, incLast p)`; `none` models the panics
(overflowing increment, or an upper bound below the lower bound). -/
def scanPfx {α : Type} (s : List (List Nat × α)) (p : List Nat) :
    Option (List (List Nat × α)) :=
  match incLast p with
  | none => none
  | some q =>
    if keyLt q p then none
    else some (s.filter (fun kv => !keyLt kv.1 p && keyLt kv.1 q))

/-! ## MVCC transactions (`src/storage/mvcc.rs`) -/

abbrev Eng := List (List Nat × List Nat)

/-- `TransactionState` from `src/storage/mvcc.rs` (the `HashSet` of active
versions is carried as a list). -/
structure TransactionState where
  version : Nat
  active_versions : List Nat

/-- `TransactionState::is_visible` (`HashSet::contains` is list membership). -/
def TransactionState.is_visible (self : TransactionState) (version : Nat) : Bool :=
  if version ∈ self.active_versions then false
  else version ≤ self.version

/-- `Iterator::min` over the active set. -/
def listMin? : List Nat → Option Nat
  | [] => none
  | a :: as =>
    some (match listMin? as with
      | none => a
      | some m => min a m)

/-- The lower scan bound of `write_inner`:
`active.iter().min().unwrap_or(self.version + 1)`. -/
def writeLo (st : TransactionState) : Nat :=
  (listMin? st.active_versions).getD (st.version + 1)

def U64MAX : Nat := 2 ^ 64 - 1

/-- Modelled from the spec (§6): values at the TXM layer are
`Option<Vec<u8>>` under "a length-prefixed variable-length binary encoding
(implementation may choose any, but must be fixed)" — the `bincode` crate in
the source, which is external to the repository.  Any fixed injective
encoding satisfies the contract; a one-byte tag is used here. -/
def bser : Option (List Nat) → List Nat
  | none => [0]
  | some v => 1 :: v

/-- Decoder matching `bser`; `none` is a `bincode` decode failure, which the
transaction surfaces as `Error::Internal`. -/
def bdeser : List Nat → Option (Option (List Nat))
  | [0] => some none
  | 1 :: v => some (some v)
  | _ => none

/-- Outcome of a transactional step: a value, an `Error`, or a Rust panic. -/
inductive Res (α : Type) where
  | ok : α → Res α
  | err : Error → Res α
  | panic : Res α
deriving DecidableEq

/-- The two engine writes at the end of `write_inner`: the `TxnWrite`
undo marker (empty value), then the `Version` record. -/
def writeBoth (st : TransactionState) (key : List Nat) (value : Option (List Nat))
    (s : Eng) : Res Unit × Eng :=
  let s₁ := alInsert s (MvccKey.TxnWrite st.version key).encode []
  let s₂ := alInsert s₁ (MvccKey.Version key st.version).encode (bser value)
  (.ok (), s₂)

/-- `MvccTransaction::write_inner`. -/
def write_inner (st : TransactionState) (key : List Nat) (value : Option (List Nat))
    (s : Eng) : Res Unit × Eng :=
  let fromK := (MvccKey.Version key (writeLo st)).encode
  let toK := (MvccKey.Version key U64MAX).encode
  match scanII s fromK toK with
  | none => (.panic, s)
  | some entries =>
    match entries.getLast? with
    | some (k, _) =>
      match MvccKey.decode k with
      | .ok (MvccKey.Version _ version) _ =>
        if st.is_visible version then writeBoth st key value s
        else (.err .WriteConflict, s)
      | .ok _ _ => (.err (.Internal "Unexpected key"), s)
      | .err e => (.err e, s)
      | .panic => (.panic, s)
    | none => writeBoth st key value s

/-- `MvccTransaction::set`. -/
def txnSet (st : TransactionState) (key value : List Nat) (s : Eng) : Res Unit × Eng :=
  write_inner st key (some value) s

/-- `MvccTransaction::delete`. -/
def txnDelete (st : TransactionState) (key : List Nat) (s : Eng) : Res Unit × Eng :=
  write_inner st key none s

/-- The read loop of `MvccTransaction::get` over the reversed range. -/
def getLoop (st : TransactionState) : List (List Nat × List Nat) → Res (Option (List Nat))
  | [] => .ok none
  | (k, v) :: rest =>
    match MvccKey.decode k with
    | .ok (MvccKey.Version _ version) _ =>
      if st.is_visible version then
        match bdeser v with
        | some payload => .ok payload
        | none => .err (.Internal "bincode")
      else getLoop st rest
    | .ok _ _ => .err (.Internal "Unexpected key")
    | .err e => .err e
    | .panic => .panic

/-- `MvccTransaction::get`: scan `Version(key, 0) ..= Version(key, v_T)` in
reverse, return the first visible payload. -/
def txnGet (st : TransactionState) (key : List Nat) (s : Eng) :
    Res (Option (List Nat)) × Eng :=
  let fromK := (MvccKey.Version key 0).encode
  let toK := (MvccKey.Version key st.version).encode
  match scanII s fromK toK with
  | none => (.panic, s)
  | some entries => (getLoop st entries.reverse, s)

/-- `MvccTransaction::commit`: delete the scanned `TxnWrite` keys, then the
`TxnActive` marker. -/
def commit (st : TransactionState) (s : Eng) : Res Unit × Eng :=
  match scanPfx s (MvccKeyPfx.TxnWrite st.version).encode with
  | none => (.panic, s)
  | some entries =>
    let delete_keys := entries.map Prod.fst
    let s₁ := delete_keys.foldl alRemove s
    (.ok (), alRemove s₁ (MvccKey.TxnActive st.version).encode)

/-- The key-collection loop of `MvccTransaction::rollback`: for each scanned
`TxnWrite(v, k)` push the `Version(k, v)` key and then the marker key. -/
def rollbackKeys (ver : Nat) : List (List Nat × List Nat) → Res (List (List Nat))
  | [] => .ok []
  | (k, _) :: rest =>
    match MvccKey.decode k with
    | .ok (MvccKey.TxnWrite _ raw_key) _ =>
      match rollbackKeys ver rest with
      | .ok l => .ok ((MvccKey.Version raw_key ver).encode :: k :: l)
      | .err e => .err e
      | .panic => .panic
    | .ok _ _ => .err (.Internal "Unexpected key")
    | .err e => .err e
    | .panic => .panic

/-- `MvccTransaction::rollback`. -/
def rollback (st : TransactionState) (s : Eng) : Res Unit × Eng :=
  match scanPfx s (MvccKeyPfx.TxnWrite st.version).encode with
  | none => (.panic, s)
  | some entries =>
    match rollbackKeys st.version entries with
    | .ok dks =>
      let s₁ := dks.foldl alRemove s
      (.ok (), alRemove s₁ (MvccKey.TxnActive st.version).encode)
    | .err e => (.err e, s)
    | .panic => (.panic, s)

/-- Wellformedness of one stored entry: its key is the encoding of a
wellformed `MvccKey`, and `Version` records carry an encoded
`Option<Vec<u8>>` payload. -/
def EntryWF (kv : List Nat × List Nat) : Prop :=
  ∃ mk : MvccKey, MvccKey.WF mk ∧ kv.1 = mk.encode ∧
    ∀ k v, mk = MvccKey.Version k v → ∃ p, kv.2 = bser p

/-- Wellformedness of an engine state reachable through the MVCC layer. -/
def StoreWF (s : Eng) : Prop := alSorted s ∧ ∀ kv ∈ s, EntryWF kv

/-- Invariant of a live transaction: its version fits in `u64` (with room for
the `+ 1` in the conflict scan), and every snapshot-active version was begun
earlier. -/
def TransactionState.WF (st : TransactionState) : Prop :=
  st.version < U64MAX ∧ ∀ a ∈ st.active_versions, a < st.version

/-! ## Auxiliary lemmas about the engine model -/

theorem mem_of_getLast? {α : Type} {l : List α} {x : α} (h : l.getLast? = some x) :
    x ∈ l := by
  induction l with
  | nil => simp at h
  | cons a as ih =>
    cases as with
    | nil =>
      simp [List.getLast?] at h
      simp [h]
    | cons b bs =>
      rw [List.getLast?_cons_cons] at h
      exact List.mem_cons_of_mem a (ih h)

theorem alSorted_filter {α : Type} {s : List (List Nat × α)} (p : List Nat × α → Bool)
    (h : alSorted s) : alSorted (s.filter p) :=
  h.sublist (List.filter_sublist s)

theorem mem_alRemove {α : Type} {s : List (List Nat × α)} {k : List Nat}
    {kv : List Nat × α} : kv ∈ alRemove s k ↔ kv ∈ s ∧ kv.1 ≠ k := by
  simp [alRemove, List.mem_filter]

theorem mem_foldl_alRemove {α : Type} (dks : List (List Nat)) :
    ∀ (s : List (List Nat × α)) (kv : List Nat × α),
      kv ∈ dks.foldl alRemove s ↔ kv ∈ s ∧ kv.1 ∉ dks := by
  induction dks with
  | nil => intro s kv; simp
  | cons d ds ih =>
    intro s kv
    rw [List.foldl_cons, ih, mem_alRemove]
    simp only [List.mem_cons]
    tauto

/-- In a sorted list, every member is at most the last element. -/
theorem mem_le_getLast {α : Type} {l : List (List Nat × α)} {kv y : List Nat × α}
    (hp : alSorted l) (hm : kv ∈ l) (hl : l.getLast? = some y) :
    kv = y ∨ keyLt kv.1 y.1 = true := by
  induction l with
  | nil => simp at hm
  | cons a as ih =>
    cases as with
    | nil =>
      simp [List.getLast?] at hl
      simp at hm
      subst hm
      left
      simp [← hl]
    | cons b bs =>
      rw [List.getLast?_cons_cons] at hl
      rcases List.mem_cons.mp hm with rfl | hm'
      · right
        have hy : y ∈ b :: bs := mem_of_getLast? hl
        exact (List.pairwise_cons.mp hp).1 y hy
      · exact ih (List.pairwise_cons.mp hp).2 hm' hl

/-- Injectivity of the `Version` encoding (both versions in `u64` range). -/
theorem versionEnc_inj {k₁ k₂ : List Nat} {v₁ v₂ : Nat} (h₁ : v₁ < 2 ^ 64) (h₂ : v₂ < 2 ^ 64)
    (h : (MvccKey.Version k₁ v₁).encode = (MvccKey.Version k₂ v₂).encode) :
    k₁ = k₂ ∧ v₁ = v₂ := by
  have ht : escBytes k₁ ++ 0 :: 0 :: be8 v₁ = escBytes k₂ ++ 0 :: 0 :: be8 v₂ := by
    have h' : (3 : Nat) :: (serialize_bytes k₁ ++ be8 v₁)
        = 3 :: (serialize_bytes k₂ ++ be8 v₂) := h
    simp only [serialize_bytes, List.cons.injEq, List.append_assoc, List.cons_append,
      List.nil_append, true_and] at h'
    simpa [serialize_bytes] using h'
  have e := next_bytes_esc k₁ (be8 v₁)
  rw [ht, next_bytes_esc k₂ (be8 v₂)] at e
  obtain ⟨hk, hbe⟩ : k₂ = k₁ ∧ be8 v₂ = be8 v₁ := by
    injection e with h₁ h₂
    exact ⟨h₁, h₂⟩
  exact ⟨hk.symm, (beN_inj (lt_pow64 h₁) (lt_pow64 h₂) hbe.symm)⟩

/-- Range characterization for the `Version(key, lo) ..= Version(key, hi)`
scans: a wellformed stored key falls in the encoded range exactly when it is a
`Version` record of the same logical key with version in `[lo, hi]`. -/
theorem verInRange {mk : MvccKey} (hwf : MvccKey.WF mk) (key : List Nat) {lo hi : Nat}
    (hlo : lo < 2 ^ 64) (hhi : hi < 2 ^ 64) :
    ((!keyLt mk.encode (MvccKey.Version key lo).encode
      && !keyLt (MvccKey.Version key hi).encode mk.encode) = true)
    ↔ ∃ w, mk = .Version key w ∧ lo ≤ w ∧ w ≤ hi := by
  cases mk with
  | NextVersion =>
    have hc : keyLt (MvccKey.NextVersion).encode (MvccKey.Version key lo).encode = true := by
      show keyLt [0] (3 :: _) = true
      simp [keyLt_cons]
    rw [hc]
    simp
  | TxnActive v =>
    have hc : keyLt (MvccKey.TxnActive v).encode (MvccKey.Version key lo).encode = true := by
      show keyLt (1 :: _) (3 :: _) = true
      simp [keyLt_cons]
    rw [hc]
    simp
  | TxnWrite v k =>
    have hc : keyLt (MvccKey.TxnWrite v k).encode (MvccKey.Version key lo).encode = true := by
      show keyLt (2 :: _) (3 :: _) = true
      simp [keyLt_cons]
    rw [hc]
    simp
  | Version k' w =>
    have hw : w < 2 ^ 64 := hwf.1
    by_cases hk : k' = key
    · subst hk
      rw [keyLt_verEnc_same k' hw hlo, keyLt_verEnc_same k' hhi hw]
      constructor
      · intro hcond
        refine ⟨w, rfl, ?_, ?_⟩ <;> [skip; skip] <;>
          · simp only [Bool.and_eq_true, Bool.not_eq_true', decide_eq_false_iff_not] at hcond
            omega
      · rintro ⟨w', hw', hlo', hhi'⟩
        obtain ⟨-, rfl⟩ : k' = k' ∧ w = w' := by
          injection hw' with h₁ h₂
          exact ⟨h₁, h₂⟩
        simp only [Bool.and_eq_true, Bool.not_eq_true', decide_eq_false_iff_not]
        omega
    · constructor
      · intro hcond
        exfalso
        simp only [Bool.and_eq_true, Bool.not_eq_true'] at hcond
        rcases keyLt_total hk with hlt | hlt
        · rw [keyLt_verEnc_ne w lo hk] at hcond
          rw [hlt] at hcond
          exact absurd hcond.1 (by simp)
        · rw [keyLt_verEnc_ne hi w (fun hc => hk hc.symm)] at hcond
          rw [hlt] at hcond
          exact absurd hcond.2 (by simp)
      · rintro ⟨w', hw', -, -⟩
        injection hw' with h₁ h₂
        exact absurd h₁ hk

/-- The half-open range `[p, incLast p)` used by `Engine::scan_prefix`
contains exactly the keys that start with `p`, for non-empty `p`. -/
theorem range_incLast_iff : ∀ (p q x : List Nat), p ≠ [] → incLast p = some q →
    ((!keyLt x p && keyLt x q) = true ↔ p <+: x) := by
  intro p
  induction p with
  | nil => intro q x h; exact absurd rfl h
  | cons b p' ih =>
    intro q x _ hq
    cases p' with
    | nil =>
      obtain ⟨h255, rfl⟩ : b ≠ 255 ∧ q = [b + 1] := by
        by_cases h255 : b = 255
        · subst h255; simp [incLast] at hq
        · simp [incLast, h255] at hq
          exact ⟨h255, hq.symm⟩
      cases x with
      | nil => simp [keyLt_nil_cons]
      | cons c x' =>
        have e1 : keyLt (c :: x') [b] = decide (c < b) := by
          rw [show ([b] : List Nat) = b :: [] from rfl, keyLt_cons]
          simp [keyLt_nil_right]
        have e2 : keyLt (c :: x') [b + 1] = decide (c < b + 1) := by
          rw [show ([b + 1] : List Nat) = (b + 1) :: [] from rfl, keyLt_cons]
          simp [keyLt_nil_right]
        rw [e1, e2, List.cons_prefix_cons]
        simp only [Bool.and_eq_true, Bool.not_eq_true', decide_eq_false_iff_not,
          decide_eq_true_eq]
        constructor
        · rintro ⟨h1, h2⟩
          exact ⟨by omega, ⟨x', rfl⟩⟩
        · rintro ⟨rfl, -⟩
          omega
    | cons b' p'' =>
      obtain ⟨q', hinc, rfl⟩ : ∃ q', incLast (b' :: p'') = some q' ∧ q = b :: q' := by
        have hstep : incLast (b :: b' :: p'') = (incLast (b' :: p'')).map (fun r => b :: r) :=
          rfl
        rw [hstep] at hq
        cases hi : incLast (b' :: p'') with
        | none => rw [hi] at hq; simp at hq
        | some q' =>
          rw [hi] at hq
          simp at hq
          exact ⟨q', rfl, hq.symm⟩
      cases x with
      | nil => simp [keyLt_nil_cons]
      | cons c x' =>
        by_cases hcb : c = b
        · subst hcb
          have hih := ih q' x' (by simp) hinc
          have e1 : keyLt (c :: x') (c :: b' :: p'') = keyLt x' (b' :: p'') := by
            rw [keyLt_cons]; simp
          have e2 : keyLt (c :: x') (c :: q') = keyLt x' q' := by
            rw [keyLt_cons]; simp
          rw [e1, e2, hih, List.cons_prefix_cons]
          simp
        · have hne₁ : (c == b) = false := by simp [hcb]
          have hbc : b ≠ c := fun h => hcb h.symm
          rcases Nat.lt_or_ge c b with hlt | hge
          · have e1 : keyLt (c :: x') (b :: b' :: p'') = true := by
              rw [keyLt_cons]; simp [hlt]
            rw [e1, List.cons_prefix_cons]
            simp [hbc]
          · have hgt : b < c := by omega
            have e2 : keyLt (c :: x') (b :: q') = false := by
              rw [keyLt_cons]; simp [Nat.lt_asymm hgt, hne₁]
            rw [e2, List.cons_prefix_cons]
            simp [hbc]

/-- A list is a prefix of `l₂ ++ t` with `l₂` of the same length iff it equals
`l₂`. -/
theorem pfx_append_eq_length {l₁ l₂ t : List Nat} (h : l₁.length = l₂.length) :
    (l₁ <+: l₂ ++ t) ↔ l₁ = l₂ := by
  constructor
  · intro hp
    obtain ⟨r, hr⟩ := hp
    have h1 : List.take l₁.length (l₁ ++ r) = l₁ := List.take_left l₁ r
    have h2 : List.take l₁.length (l₂ ++ t) = l₂ := by
      rw [h]
      exact List.take_left l₂ t
    rw [← h1, hr, h2]
  · rintro rfl
    exact List.prefix_append l₁ t

/-- A wellformed stored key starts with the encoded `TxnWrite(v)` prefix
exactly when it is a `TxnWrite(v, k)` marker. -/
theorem txnWritePfxEnc_iff {mk : MvccKey} (hwf : MvccKey.WF mk) {v : Nat} (hv : v < 2 ^ 64) :
    ((MvccKeyPfx.TxnWrite v).encode <+: mk.encode) ↔ ∃ k, mk = .TxnWrite v k := by
  cases mk with
  | NextVersion =>
    show ((2 : Nat) :: be8 v <+: [0]) ↔ _
    rw [List.cons_prefix_cons]
    simp
  | TxnActive v' =>
    show ((2 : Nat) :: be8 v <+: 1 :: be8 v') ↔ _
    rw [List.cons_prefix_cons]
    simp
  | Version k' w =>
    show ((2 : Nat) :: be8 v <+: 3 :: (serialize_bytes k' ++ be8 w)) ↔ _
    rw [List.cons_prefix_cons]
    simp
  | TxnWrite v' k' =>
    show ((2 : Nat) :: be8 v <+: 2 :: (be8 v' ++ serialize_bytes k')) ↔ _
    rw [List.cons_prefix_cons,
      pfx_append_eq_length (by rw [be8_length, be8_length])]
    constructor
    · rintro ⟨-, hbe⟩
      exact ⟨k', by rw [beN_inj (lt_pow64 hv) (lt_pow64 hwf.1) hbe]⟩
    · rintro ⟨k, hk⟩
      injection hk with h₁ h₂
      subst h₁
      exact ⟨rfl, rfl⟩

theorem scanPfx_none {α : Type} (s : List (List Nat × α)) (p : List Nat)
    (h : incLast p = none) : scanPfx s p = none := by
  unfold scanPfx
  rw [h]

theorem scanPfx_some {α : Type} (s : List (List Nat × α)) (p q : List Nat)
    (h : incLast p = some q) :
    scanPfx s p = if keyLt q p then none
      else some (s.filter (fun kv => !keyLt kv.1 p && keyLt kv.1 q)) := by
  unfold scanPfx
  rw [h]

theorem scanPfx_eq_some {α : Type} {s : List (List Nat × α)} {p : List Nat}
    {es : List (List Nat × α)} :
    scanPfx s p = some es ↔ ∃ q, incLast p = some q ∧ keyLt q p = false ∧
      es = s.filter (fun kv => !keyLt kv.1 p && keyLt kv.1 q) := by
  constructor
  · intro h
    cases hinc : incLast p with
    | none => rw [scanPfx_none s p hinc] at h; exact absurd h (by simp)
    | some q =>
      rw [scanPfx_some s p q hinc] at h
      by_cases hlt : keyLt q p = true
      · rw [if_pos hlt] at h
        exact absurd h (by simp)
      · rw [if_neg hlt] at h
        refine ⟨q, rfl, by simpa using hlt, ?_⟩
        injection h with h'
        exact h'.symm
  · rintro ⟨q, hinc, hlt, rfl⟩
    rw [scanPfx_some s p q hinc, if_neg (by simp [hlt])]

/-! ## Claim C10 -/

/-- C10: `Engine::scan_prefix` with the empty prefix yields the range
`[Included [], Excluded []]`, which contains no key: the scan is empty (and
does not panic), even though every stored key starts with the empty prefix. -/
theorem C10_scanPfx_empty (s : Eng) :
    scanPfx s [] = some [] ∧ ∀ kv ∈ s, [] <+: kv.1 := by
  constructor
  · have hf : s.filter (fun kv => !keyLt kv.1 [] && keyLt kv.1 []) = [] := by
      induction s with
      | nil => rfl
      | cons a as ih => simp [List.filter_cons, keyLt_nil_right, ih]
    rw [scanPfx_some s [] [] rfl, if_neg (by decide), hf]
  · intro kv _
    exact ⟨kv.1, rfl⟩

/-! ## Lemmas for the MVCC claims -/

theorem getLast?_ne_none {α : Type} : ∀ (as : List α) (a : α), (a :: as).getLast? ≠ none := by
  intro as
  induction as with
  | nil => intro a h; simp [List.getLast?] at h
  | cons b bs ih =>
    intro a h
    rw [List.getLast?_cons_cons] at h
    exact ih b h

theorem listMin?_mem : ∀ {l : List Nat} {m : Nat}, listMin? l = some m → m ∈ l := by
  intro l
  induction l with
  | nil => intro m h; simp [listMin?] at h
  | cons a as ih =>
    intro m h
    simp only [listMin?, Option.some.injEq] at h
    cases hm : listMin? as with
    | none =>
      rw [hm] at h
      simp at h
      simp [← h]
    | some m' =>
      rw [hm] at h
      simp at h
      rcases min_choice a m' with hc | hc <;> rw [hc] at h
      · simp [← h]
      · exact List.mem_cons_of_mem a (h ▸ ih hm)

theorem listMin?_none_iff {l : List Nat} : listMin? l = none ↔ l = [] := by
  cases l with
  | nil => simp [listMin?]
  | cons a as => simp [listMin?]

/-- The `min(active) or version+1` fallback of the source equals the claim's
`min(active ∪ {version+1})` whenever every default dominates the list. -/
theorem listMin?_getD_foldr : ∀ (l : List Nat) (d : Nat), (∀ a ∈ l, a ≤ d) →
    (listMin? l).getD d = l.foldr min d := by
  intro l
  induction l with
  | nil => intro d _; rfl
  | cons a as ih =>
    intro d hd
    cases hm : listMin? as with
    | none =>
      obtain rfl : as = [] := listMin?_none_iff.mp hm
      have : a ≤ d := hd a (by simp)
      simp [listMin?, List.foldr, Nat.min_def, this]
    | some m =>
      have hih := ih d (fun x hx => hd x (List.mem_cons_of_mem a hx))
      rw [hm] at hih
      simp only [listMin?, hm, Option.getD_some, List.foldr_cons]
      rw [← hih]
      simp

/-- Lower bound of the conflict scan, as the claim states it:
`min(active ∪ {version + 1})`. -/
def claimLo (st : TransactionState) : Nat :=
  st.active_versions.foldr min (st.version + 1)

theorem writeLo_eq_claimLo {st : TransactionState} (ht : st.WF) : writeLo st = claimLo st := by
  unfold writeLo claimLo
  exact listMin?_getD_foldr st.active_versions (st.version + 1)
    (fun a ha => Nat.le_of_lt (Nat.lt_succ_of_lt (ht.2 a ha)))

theorem writeLo_le_succ {st : TransactionState} (ht : st.WF) :
    writeLo st ≤ st.version + 1 := by
  unfold writeLo
  cases hm : listMin? st.active_versions with
  | none => simp
  | some m =>
    have := ht.2 m (listMin?_mem hm)
    simp
    omega

theorem is_visible_false_iff {st : TransactionState} {w : Nat} :
    st.is_visible w = false ↔ (w ∈ st.active_versions ∨ st.version < w) := by
  unfold TransactionState.is_visible
  by_cases hc : w ∈ st.active_versions
  · simp [hc]
  · simp [hc, Nat.not_le]

theorem is_visible_true_iff {st : TransactionState} {w : Nat} :
    st.is_visible w = true ↔ (w ∉ st.active_versions ∧ w ≤ st.version) := by
  unfold TransactionState.is_visible
  by_cases hc : w ∈ st.active_versions
  · simp [hc]
  · simp [hc]

/-- In a wellformed store, an entry whose key is an encoded `Version(key, w)`
with `w` in `u64` range is a wellformed `Version` entry with an encoded
payload. -/
theorem storeWF_versionKey {s : Eng} (hs : StoreWF s) {kv : List Nat × List Nat} (hkv : kv ∈ s)
    {key : List Nat} {w : Nat} (hw : w < 2 ^ 64)
    (hk : kv.1 = (MvccKey.Version key w).encode) :
    MvccKey.WF (MvccKey.Version key w) ∧ ∃ p, kv.2 = bser p := by
  obtain ⟨mk, hwf, henc, hval⟩ := hs.2 kv hkv
  cases mk with
  | NextVersion =>
    exfalso
    rw [henc] at hk
    exact absurd hk (by simp [MvccKey.encode])
  | TxnActive v =>
    exfalso
    rw [henc] at hk
    injection hk with h1 h2
    omega
  | TxnWrite v k =>
    exfalso
    rw [henc] at hk
    injection hk with h1 h2
    omega
  | Version k₂ v₂ =>
    obtain ⟨hkeq, hveq⟩ := versionEnc_inj hwf.1 hw (by rw [← henc]; exact hk)
    constructor
    · rw [← hkeq, ← hveq]
      exact hwf
    · exact hval key w (by rw [hkeq, hveq])

/-! ## Claim C1 -/

/-- C1: a write of `key` by transaction `T` (set or delete both go through
`write_inner`) fails with `WriteConflict` iff the store contains a
`Version(key, w)` record with `w` in the inclusive range
`[min(active ∪ {v_T + 1}), u64::MAX]` whose largest such `w` is not visible to
`T` (`w ∈ active_T` or `w > v_T`); and a failed write adds no `TxnWrite` and
no `Version` record — the store is unchanged. -/
theorem C1_write_conflict (st : TransactionState) (s : Eng) (key : List Nat)
    (value : Option (List Nat)) (hs : StoreWF s) (ht : st.WF) :
    ((write_inner st key value s).1 = Res.err Error.WriteConflict ↔
      ∃ w, (∃ pv, ((MvccKey.Version key w).encode, pv) ∈ s) ∧
        claimLo st ≤ w ∧ w ≤ U64MAX ∧
        (∀ w', (∃ pv', ((MvccKey.Version key w').encode, pv') ∈ s) → claimLo st ≤ w' →
          w' ≤ U64MAX → w' ≤ w) ∧
        (w ∈ st.active_versions ∨ st.version < w)) ∧
    ((write_inner st key value s).1 = Res.err Error.WriteConflict →
      (write_inner st key value s).2 = s) := by
  have hMAX : U64MAX < 2 ^ 64 := by
    show (2 : Nat) ^ 64 - 1 < 2 ^ 64
    norm_num
  have hlosucc := writeLo_le_succ ht
  have hv1 : st.version < 2 ^ 64 - 1 := ht.1
  have hlo64 : writeLo st < 2 ^ 64 := by omega
  have hloMAX : writeLo st ≤ U64MAX := by
    show writeLo st ≤ 2 ^ 64 - 1
    omega
  have hcl : claimLo st = writeLo st := (writeLo_eq_claimLo ht).symm
  have hscan : scanII s (MvccKey.Version key (writeLo st)).encode
      (MvccKey.Version key U64MAX).encode
      = some (s.filter (fun kv => !keyLt kv.1 (MvccKey.Version key (writeLo st)).encode
          && !keyLt (MvccKey.Version key U64MAX).encode kv.1)) := by
    unfold scanII
    rw [if_neg]
    rw [keyLt_verEnc_same key hMAX hlo64]
    simp
    omega
  have hmem : ∀ kv : List Nat × List Nat,
      kv ∈ s.filter (fun kv => !keyLt kv.1 (MvccKey.Version key (writeLo st)).encode
        && !keyLt (MvccKey.Version key U64MAX).encode kv.1) ↔
      kv ∈ s ∧ ∃ w, kv.1 = (MvccKey.Version key w).encode ∧ writeLo st ≤ w ∧ w ≤ U64MAX := by
    intro kv
    rw [List.mem_filter]
    constructor
    · rintro ⟨hins, htest⟩
      obtain ⟨mk, hwf, henc, -⟩ := hs.2 kv hins
      rw [henc] at htest
      obtain ⟨w, hmk, hwlo, hwhi⟩ := (verInRange hwf key hlo64 hMAX).mp htest
      exact ⟨hins, w, by rw [henc, hmk], hwlo, hwhi⟩
    · rintro ⟨hins, w, hk, hwlo, hwhi⟩
      refine ⟨hins, ?_⟩
      rw [hk]
      have hw64 : w < 2 ^ 64 := lt_of_le_of_lt hwhi hMAX
      rw [keyLt_verEnc_same key hw64 hlo64, keyLt_verEnc_same key hMAX hw64]
      simp
      omega
  have hsorted : alSorted (s.filter (fun kv =>
      !keyLt kv.1 (MvccKey.Version key (writeLo st)).encode
        && !keyLt (MvccKey.Version key U64MAX).encode kv.1)) :=
    alSorted_filter _ hs.1
  have hred : write_inner st key value s =
      match (s.filter (fun kv => !keyLt kv.1 (MvccKey.Version key (writeLo st)).encode
          && !keyLt (MvccKey.Version key U64MAX).encode kv.1)).getLast? with
      | some (k, _) =>
        match MvccKey.decode k with
        | .ok (MvccKey.Version _ version) _ =>
          if st.is_visible version then writeBoth st key value s
          else (.err .WriteConflict, s)
        | .ok _ _ => (.err (.Internal "Unexpected key"), s)
        | .err e => (.err e, s)
        | .panic => (.panic, s)
      | none => writeBoth st key value s := by
    unfold write_inner
    dsimp only
    rw [hscan]
  cases hlast : (s.filter (fun kv =>
      !keyLt kv.1 (MvccKey.Version key (writeLo st)).encode
        && !keyLt (MvccKey.Version key U64MAX).encode kv.1)).getLast? with
  | none =>
    rw [hlast] at hred
    have hnil : s.filter (fun kv =>
        !keyLt kv.1 (MvccKey.Version key (writeLo st)).encode
          && !keyLt (MvccKey.Version key U64MAX).encode kv.1) = [] := by
      cases hcase : s.filter (fun kv =>
          !keyLt kv.1 (MvccKey.Version key (writeLo st)).encode
            && !keyLt (MvccKey.Version key U64MAX).encode kv.1) with
      | nil => rfl
      | cons a as =>
        rw [hcase] at hlast
        exact absurd hlast (getLast?_ne_none as a)
    constructor
    · constructor
      · intro h
        rw [hred] at h
        exact absurd h (by simp [writeBoth])
      · rintro ⟨w, ⟨pv, hpv⟩, hwlo, hwhi, -, -⟩
        have : ((MvccKey.Version key w).encode, pv) ∈ s.filter (fun kv =>
            !keyLt kv.1 (MvccKey.Version key (writeLo st)).encode
              && !keyLt (MvccKey.Version key U64MAX).encode kv.1) :=
          (hmem _).mpr ⟨hpv, w, rfl, by omega, hwhi⟩
        rw [hnil] at this
        exact absurd this (by simp)
    · intro h
      rw [hred] at h
      exact absurd h (by simp [writeBoth])
  | some kv0 =>
    obtain ⟨k0, v0⟩ := kv0
    rw [hlast] at hred
    have hk0mem := mem_of_getLast? hlast
    obtain ⟨hins, w0, hk0p, hw0lo, hw0hi⟩ := (hmem _).mp hk0mem
    have hk0 : k0 = (MvccKey.Version key w0).encode := hk0p
    have hw064 : w0 < 2 ^ 64 := lt_of_le_of_lt hw0hi hMAX
    obtain ⟨hwfV, -⟩ := storeWF_versionKey hs hins hw064 hk0
    have hdec : MvccKey.decode k0 = .ok (MvccKey.Version key w0) [] := by
      rw [hk0]
      unfold MvccKey.decode
      rw [deserialize_serialize hwfV]
    have hred2 : write_inner st key value s
        = if st.is_visible w0 then writeBoth st key value s
          else (.err .WriteConflict, s) := by
      rw [hred]
      simp [hdec]
    have hmax0 : ∀ w', (∃ pv', ((MvccKey.Version key w').encode, pv') ∈ s) →
        writeLo st ≤ w' → w' ≤ U64MAX → w' ≤ w0 := by
      rintro w' ⟨pv', hpv'⟩ hwlo' hwhi'
      have hw'64 : w' < 2 ^ 64 := lt_of_le_of_lt hwhi' hMAX
      have hmem' : ((MvccKey.Version key w').encode, pv') ∈ s.filter (fun kv =>
          !keyLt kv.1 (MvccKey.Version key (writeLo st)).encode
            && !keyLt (MvccKey.Version key U64MAX).encode kv.1) :=
        (hmem _).mpr ⟨hpv', w', rfl, hwlo', hwhi'⟩
      rcases mem_le_getLast hsorted hmem' hlast with heq | hlt
      · have : (MvccKey.Version key w').encode = k0 := congrArg Prod.fst heq
        rw [hk0] at this
        exact le_of_eq (versionEnc_inj hw'64 hw064 this).2
      · rw [hk0] at hlt
        have := keyLt_verEnc_same key hw'64 hw064
        rw [this] at hlt
        simp at hlt
        omega
    by_cases hvis : st.is_visible w0 = true
    · rw [if_pos hvis] at hred2
      constructor
      · constructor
        · intro h
          rw [hred2] at h
          exact absurd h (by simp [writeBoth])
        · rintro ⟨w, hwmem, hwlo, hwhi, hwmax, hwnv⟩
          exfalso
          rw [hcl] at hwlo hwmax
          have h1 : w0 ≤ w := hwmax w0 ⟨v0, hk0 ▸ hins⟩ hw0lo hw0hi
          have h2 : w ≤ w0 := hmax0 w hwmem hwlo hwhi
          have : w = w0 := by omega
          subst this
          rw [is_visible_true_iff] at hvis
          rcases hwnv with hin | hgt
          · exact hvis.1 hin
          · omega
      · intro h
        rw [hred2] at h
        exact absurd h (by simp [writeBoth])
    · have hvis' : st.is_visible w0 = false := by
        cases h : st.is_visible w0 with
        | false => rfl
        | true => exact absurd h hvis
      rw [if_neg (by simp [hvis'])] at hred2
      constructor
      · constructor
        · intro _
          refine ⟨w0, ⟨v0, hk0 ▸ hins⟩, by rw [hcl]; omega, hw0hi, ?_, ?_⟩
          · intro w' hw' hlo' hhi'
            rw [hcl] at hlo'
            exact hmax0 w' hw' hlo' hhi'
          · exact is_visible_false_iff.mp hvis'
        · intro _
          rw [hred2]
      · intro _
        rw [hred2]

theorem C1_write_conflict_witness :
    StoreWF [] ∧ TransactionState.WF ⟨1, []⟩ ∧
    (((write_inner ⟨1, []⟩ [5] (some [7]) []).1 = Res.err Error.WriteConflict ↔
      ∃ w, (∃ pv, ((MvccKey.Version [5] w).encode, pv) ∈ ([] : Eng)) ∧
        claimLo ⟨1, []⟩ ≤ w ∧ w ≤ U64MAX ∧
        (∀ w', (∃ pv', ((MvccKey.Version [5] w').encode, pv') ∈ ([] : Eng)) →
          claimLo ⟨1, []⟩ ≤ w' → w' ≤ U64MAX → w' ≤ w) ∧
        (w ∈ ([] : List Nat) ∨ 1 < w)) ∧
    (((write_inner ⟨1, []⟩ [5] (some [7]) []).1 = Res.err Error.WriteConflict) →
      (write_inner ⟨1, []⟩ [5] (some [7]) []).2 = [])) :=
  ⟨⟨List.Pairwise.nil, by simp⟩, ⟨by unfold U64MAX; norm_num, by simp⟩,
    C1_write_conflict ⟨1, []⟩ [] [5] (some [7]) ⟨List.Pairwise.nil, by simp⟩
      ⟨by unfold U64MAX; norm_num, by simp⟩⟩

/-! ## Claim C2 -/

theorem bdeser_bser (p : Option (List Nat)) : bdeser (bser p) = some p := by
  cases p <;> rfl

/-- Behaviour of the read loop of `get` on a version-descending list of
wellformed `Version(key, ·)` entries: it returns the payload of the first
(= largest) visible version, or `none` when no version is visible. -/
theorem getLoop_spec (st : TransactionState) (key : List Nat) :
    ∀ L : List (List Nat × List Nat),
      List.Pairwise (fun a b => keyLt b.1 a.1 = true) L →
      (∀ kv ∈ L, ∃ w p, MvccKey.WF (MvccKey.Version key w) ∧
        kv.1 = (MvccKey.Version key w).encode ∧ kv.2 = bser p) →
      ∃ r, getLoop st L = .ok r ∧
        ((∃ w p, ∃ kv ∈ L, kv.1 = (MvccKey.Version key w).encode ∧ kv.2 = bser p ∧
          st.is_visible w = true ∧
          (∀ kv' ∈ L, ∀ w', kv'.1 = (MvccKey.Version key w').encode → w' < 2 ^ 64 →
            st.is_visible w' = true → w' ≤ w) ∧ r = p) ∨
        ((∀ kv' ∈ L, ∀ w', kv'.1 = (MvccKey.Version key w').encode → w' < 2 ^ 64 →
            st.is_visible w' = true → False) ∧ r = none)) := by
  intro L
  induction L with
  | nil =>
    intro _ _
    exact ⟨none, rfl, Or.inr ⟨by simp, rfl⟩⟩
  | cons kv rest ih =>
    intro hdesc hall
    obtain ⟨k, v⟩ := kv
    obtain ⟨w, p, hwf, hkp, hvp⟩ := hall (k, v) (by simp)
    have hk : k = (MvccKey.Version key w).encode := hkp
    have hv : v = bser p := hvp
    have hdec : MvccKey.decode k = .ok (MvccKey.Version key w) [] := by
      rw [hk]
      unfold MvccKey.decode
      rw [deserialize_serialize hwf]
    have hw64 : w < 2 ^ 64 := hwf.1
    by_cases hvis : st.is_visible w = true
    · refine ⟨p, ?_, Or.inl ⟨w, p, (k, v), by simp, hkp, hvp, hvis, ?_, rfl⟩⟩
      · show getLoop st ((k, v) :: rest) = .ok p
        unfold getLoop
        rw [hdec]
        simp [hvis, hv, bdeser_bser]
      · rintro kv' hkv' w' hk' hw'64 hvis'
        rcases List.mem_cons.mp hkv' with rfl | hmem'
        · have : w' = w := by
            have he : (MvccKey.Version key w').encode = (MvccKey.Version key w).encode := by
              rw [← hk', hk]
            exact (versionEnc_inj hw'64 hw64 he).2
          omega
        · have hlt : keyLt kv'.1 k = true := (List.pairwise_cons.mp hdesc).1 kv' hmem'
          rw [hk', hk, keyLt_verEnc_same key hw'64 hw64] at hlt
          simp at hlt
          omega
    · have hvis' : st.is_visible w = false := by
        cases h : st.is_visible w with
        | false => rfl
        | true => exact absurd h hvis
      obtain ⟨r, hloop, hcases⟩ := ih (List.pairwise_cons.mp hdesc).2
        (fun kv' h' => hall kv' (List.mem_cons_of_mem _ h'))
      refine ⟨r, ?_, ?_⟩
      · show getLoop st ((k, v) :: rest) = .ok r
        unfold getLoop
        rw [hdec]
        simp [hvis', hloop]
      · have hheadNone : ∀ w', (k, v).1 = (MvccKey.Version key w').encode → w' < 2 ^ 64 →
            st.is_visible w' = true → False := by
          intro w' hk' hw'64 hv'
          have : w' = w := by
            exact (versionEnc_inj hw'64 hw64 (by rw [← hk', hk])).2
          rw [this] at hv'
          rw [hv'] at hvis'
          exact absurd hvis' (by simp)
        rcases hcases with ⟨w', p', kv', hmem', hk', hv', hvis2, hmax, hr⟩ | ⟨hnone, hr⟩
        · refine Or.inl ⟨w', p', kv', List.mem_cons_of_mem _ hmem', hk', hv', hvis2, ?_, hr⟩
          rintro kv₂ hkv₂ w₂ hk₂ hw₂64 hvis₂
          rcases List.mem_cons.mp hkv₂ with rfl | hmem₂
          · exact absurd hvis₂ (fun hc => hheadNone w₂ hk₂ hw₂64 hc)
          · exact hmax kv₂ hmem₂ w₂ hk₂ hw₂64 hvis₂
        · refine Or.inr ⟨?_, hr⟩
          rintro kv₂ hkv₂ w₂ hk₂ hw₂64 hvis₂
          rcases List.mem_cons.mp hkv₂ with rfl | hmem₂
          · exact hheadNone w₂ hk₂ hw₂64 hvis₂
          · exact hnone kv₂ hmem₂ w₂ hk₂ hw₂64 hvis₂

/-- C2: `get(key)` returns the payload of the `Version(key, w)` record with
the largest `w ≤ v_T`, `w ∉ active_T` among the stored versions of `key`;
`None` when that payload is a tombstone or when no visible version exists. -/
theorem C2_get (st : TransactionState) (s : Eng) (key : List Nat)
    (hs : StoreWF s) (ht : st.WF) :
    ∃ r, txnGet st key s = (Res.ok r, s) ∧
      ((∃ w p, ((MvccKey.Version key w).encode, bser p) ∈ s ∧
          w ≤ st.version ∧ w ∉ st.active_versions ∧
          (∀ w' pv', ((MvccKey.Version key w').encode, pv') ∈ s → w' ≤ st.version →
            w' ∉ st.active_versions → w' ≤ w) ∧ r = p) ∨
        ((∀ w pv, ((MvccKey.Version key w).encode, pv) ∈ s → w ≤ st.version →
            w ∉ st.active_versions → False) ∧ r = none)) := by
  have hv64 : st.version < 2 ^ 64 := by
    have h1 : st.version < 2 ^ 64 - 1 := ht.1
    omega
  have h064 : (0 : Nat) < 2 ^ 64 := by norm_num
  have hscan : scanII s (MvccKey.Version key 0).encode
      (MvccKey.Version key st.version).encode
      = some (s.filter (fun kv => !keyLt kv.1 (MvccKey.Version key 0).encode
          && !keyLt (MvccKey.Version key st.version).encode kv.1)) := by
    unfold scanII
    rw [if_neg]
    rw [keyLt_verEnc_same key hv64 h064]
    simp
  have hmem : ∀ kv : List Nat × List Nat,
      kv ∈ s.filter (fun kv => !keyLt kv.1 (MvccKey.Version key 0).encode
        && !keyLt (MvccKey.Version key st.version).encode kv.1) ↔
      kv ∈ s ∧ ∃ w, kv.1 = (MvccKey.Version key w).encode ∧ w ≤ st.version := by
    intro kv
    rw [List.mem_filter]
    constructor
    · rintro ⟨hins, htest⟩
      obtain ⟨mk, hwf, henc, -⟩ := hs.2 kv hins
      rw [henc] at htest
      obtain ⟨w, hmk, -, hwhi⟩ := (verInRange hwf key h064 hv64).mp htest
      exact ⟨hins, w, by rw [henc, hmk], hwhi⟩
    · rintro ⟨hins, w, hk, hwhi⟩
      refine ⟨hins, ?_⟩
      rw [hk]
      have hw64 : w < 2 ^ 64 := lt_of_le_of_lt hwhi hv64
      rw [keyLt_verEnc_same key hw64 h064, keyLt_verEnc_same key hv64 hw64]
      simp
      omega
  have hsorted : alSorted (s.filter (fun kv =>
      !keyLt kv.1 (MvccKey.Version key 0).encode
        && !keyLt (MvccKey.Version key st.version).encode kv.1)) :=
    alSorted_filter _ hs.1
  have hdesc : List.Pairwise (fun a b => keyLt b.1 a.1 = true)
      (s.filter (fun kv => !keyLt kv.1 (MvccKey.Version key 0).encode
        && !keyLt (MvccKey.Version key st.version).encode kv.1)).reverse := by
    rw [List.pairwise_reverse]
    exact hsorted
  have hall : ∀ kv ∈ (s.filter (fun kv => !keyLt kv.1 (MvccKey.Version key 0).encode
      && !keyLt (MvccKey.Version key st.version).encode kv.1)).reverse,
      ∃ w p, MvccKey.WF (MvccKey.Version key w) ∧
        kv.1 = (MvccKey.Version key w).encode ∧ kv.2 = bser p := by
    intro kv hkv
    rw [List.mem_reverse] at hkv
    obtain ⟨hins, w, hk, hwhi⟩ := (hmem kv).mp hkv
    have hw64 : w < 2 ^ 64 := lt_of_le_of_lt hwhi hv64
    obtain ⟨hwf, p, hp⟩ := storeWF_versionKey hs hins hw64 hk
    exact ⟨w, p, hwf, hk, hp⟩
  obtain ⟨r, hloop, hcases⟩ := getLoop_spec st key _ hdesc hall
  have hred : txnGet st key s = (getLoop st
      (s.filter (fun kv => !keyLt kv.1 (MvccKey.Version key 0).encode
        && !keyLt (MvccKey.Version key st.version).encode kv.1)).reverse, s) := by
    unfold txnGet
    dsimp only
    rw [hscan]
  refine ⟨r, by rw [hred, hloop], ?_⟩
  rcases hcases with ⟨w, p, kv, hkvmem, hk, hv, hvis, hmax, hr⟩ | ⟨hnone, hr⟩
  · rw [List.mem_reverse] at hkvmem
    have hins : kv ∈ s := ((hmem kv).mp hkvmem).1
    have hkv_eq : kv = ((MvccKey.Version key w).encode, bser p) := by
      obtain ⟨a, b⟩ := kv
      simp only at hk hv
      rw [hk, hv]
    rw [is_visible_true_iff] at hvis
    refine Or.inl ⟨w, p, hkv_eq ▸ hins, hvis.2, hvis.1, ?_, hr⟩
    intro w' pv' hpv' hle' hnact'
    have hw'64 : w' < 2 ^ 64 := lt_of_le_of_lt hle' hv64
    have hmem' : ((MvccKey.Version key w').encode, pv')
        ∈ (s.filter (fun kv => !keyLt kv.1 (MvccKey.Version key 0).encode
          && !keyLt (MvccKey.Version key st.version).encode kv.1)).reverse := by
      rw [List.mem_reverse]
      exact (hmem _).mpr ⟨hpv', w', rfl, hle'⟩
    exact hmax _ hmem' w' rfl hw'64 (is_visible_true_iff.mpr ⟨hnact', hle'⟩)
  · refine Or.inr ⟨?_, hr⟩
    intro w pv hpv hle hnact
    have hw64 : w < 2 ^ 64 := lt_of_le_of_lt hle hv64
    have hmem' : ((MvccKey.Version key w).encode, pv)
        ∈ (s.filter (fun kv => !keyLt kv.1 (MvccKey.Version key 0).encode
          && !keyLt (MvccKey.Version key st.version).encode kv.1)).reverse := by
      rw [List.mem_reverse]
      exact (hmem _).mpr ⟨hpv, w, rfl, hle⟩
    exact hnone _ hmem' w rfl hw64 (is_visible_true_iff.mpr ⟨hnact, hle⟩)

theorem C2_get_witness :
    StoreWF [((MvccKey.Version [5] 1).encode, bser (some [7]))] ∧
    TransactionState.WF ⟨2, []⟩ ∧
    (∃ r, txnGet ⟨2, []⟩ [5] [((MvccKey.Version [5] 1).encode, bser (some [7]))]
        = (Res.ok r, [((MvccKey.Version [5] 1).encode, bser (some [7]))]) ∧
      ((∃ w p, ((MvccKey.Version [5] w).encode, bser p)
            ∈ [((MvccKey.Version [5] 1).encode, bser (some [7]))] ∧
          w ≤ (2 : Nat) ∧ w ∉ ([] : List Nat) ∧
          (∀ w' pv', ((MvccKey.Version [5] w').encode, pv')
              ∈ [((MvccKey.Version [5] 1).encode, bser (some [7]))] → w' ≤ (2 : Nat) →
            w' ∉ ([] : List Nat) → w' ≤ w) ∧ r = p) ∨
        ((∀ w pv, ((MvccKey.Version [5] w).encode, pv)
            ∈ [((MvccKey.Version [5] 1).encode, bser (some [7]))] → w ≤ (2 : Nat) →
          w ∉ ([] : List Nat) → False) ∧ r = none))) := by
  have hs : StoreWF [((MvccKey.Version [5] 1).encode, bser (some [7]))] := by
    constructor
    · simp [alSorted]
    · intro kv hkv
      simp at hkv
      exact ⟨MvccKey.Version [5] 1, ⟨by norm_num, by decide⟩, by rw [hkv],
        fun k v h => ⟨some [7], by rw [hkv]⟩⟩
  have ht : TransactionState.WF ⟨2, []⟩ := ⟨by norm_num [U64MAX], by simp⟩
  exact ⟨hs, ht, C2_get ⟨2, []⟩ _ [5] hs ht⟩

/-! ## Claims C7 (commit) and C6 (rollback) -/

/-- Injectivity of the `TxnWrite` encoding in the key payload. -/
theorem txnWriteEnc_inj {k₁ k₂ : List Nat} {v : Nat}
    (h : (MvccKey.TxnWrite v k₁).encode = (MvccKey.TxnWrite v k₂).encode) : k₁ = k₂ := by
  have h' : (2 : Nat) :: (be8 v ++ serialize_bytes k₁)
      = 2 :: (be8 v ++ serialize_bytes k₂) := h
  simp only [List.cons.injEq, true_and] at h'
  have h2 : serialize_bytes k₁ = serialize_bytes k₂ := by
    have hlen : (be8 v).length = (be8 v).length := rfl
    exact List.append_cancel_left h'
  have e := next_bytes_esc k₁ []
  have hs : escBytes k₁ ++ 0 :: 0 :: [] = serialize_bytes k₁ := by
    simp [serialize_bytes]
  rw [hs, h2, show serialize_bytes k₂ = escBytes k₂ ++ 0 :: 0 :: [] by simp [serialize_bytes],
    next_bytes_esc k₂ []] at e
  injection e with h1 _
  exact h1.symm

/-- In a wellformed store, an entry passes the `TxnWrite(v)` prefix test of
`scan_prefix` exactly when its key is an encoded `TxnWrite(v, k)` marker. -/
theorem txnWrite_pfx_test {s : Eng} (hs : StoreWF s) {v : Nat} (hv : v < 2 ^ 64)
    {q : List Nat} (hinc : incLast ((MvccKeyPfx.TxnWrite v).encode) = some q) :
    ∀ kv ∈ s, ((!keyLt kv.1 ((MvccKeyPfx.TxnWrite v).encode)
        && keyLt kv.1 q) = true ↔ ∃ k, MvccKey.WF (MvccKey.TxnWrite v k) ∧
          kv.1 = (MvccKey.TxnWrite v k).encode) := by
  intro kv hkv
  obtain ⟨mk, hwf, henc, -⟩ := hs.2 kv hkv
  have hpne : (MvccKeyPfx.TxnWrite v).encode ≠ [] := by
    show (2 : Nat) :: be8 v ≠ []
    simp
  rw [henc, range_incLast_iff _ q mk.encode hpne hinc, txnWritePfxEnc_iff hwf hv]
  constructor
  · rintro ⟨k, rfl⟩
    exact ⟨k, hwf, rfl⟩
  · rintro ⟨k, -, hk⟩
    cases mk with
    | NextVersion => exact absurd hk (by simp [MvccKey.encode])
    | TxnActive v' => exact absurd hk (by simp [MvccKey.encode])
    | Version k' w => exact absurd hk (by simp [MvccKey.encode])
    | TxnWrite v' k' =>
      have h2 : v' = v := by
        have : (2 : Nat) :: (be8 v' ++ serialize_bytes k')
            = 2 :: (be8 v ++ serialize_bytes k) := hk
        simp only [List.cons.injEq, true_and] at this
        have hbe : be8 v' = be8 v := by
          have hl : (be8 v').length = (be8 v).length := by
            rw [be8_length, be8_length]
          exact List.append_inj_left this (by rw [be8_length, be8_length])
        exact beN_inj (lt_pow64 hwf.1) (lt_pow64 hv) hbe
      exact ⟨k', by rw [h2]⟩

/-- `incLast` on a byte string written with its last byte explicit: the last
byte is incremented, `none` (the `u8` overflow panic) at `0xFF`. -/
theorem incLast_snoc (l : List Nat) (b : Nat) :
    incLast (l ++ [b]) = if b = 255 then none else some (l ++ [b + 1]) := by
  induction l with
  | nil => by_cases hb : b = 255 <;> simp [incLast, hb]
  | cons a t ih =>
    cases t with
    | nil =>
      show (incLast [b]).map (fun r => a :: r) = _
      by_cases hb : b = 255 <;> simp [incLast, hb]
    | cons c t' =>
      show (incLast ((c :: t') ++ [b])).map (fun r => a :: r) = _
      rw [ih]
      by_cases hb : b = 255 <;> simp [hb]

/-- The last digit of an `(n+1)`-byte big-endian encoding is the value's low
byte. -/
theorem beN_snoc (n : Nat) : ∀ v : Nat, v < 256 ^ (n + 1) →
    ∃ l, beN (n + 1) v = l ++ [v % 256] := by
  induction n with
  | zero =>
    intro v hv
    refine ⟨[], ?_⟩
    show [v / 256 ^ 0] = [] ++ [v % 256]
    have hv' : v < 256 := by simpa using hv
    simp [Nat.mod_eq_of_lt hv']
  | succ n ih =>
    intro v hv
    obtain ⟨l, hl⟩ := ih (v % 256 ^ (n + 1)) (Nat.mod_lt _ (by positivity))
    refine ⟨v / 256 ^ (n + 1) :: l, ?_⟩
    show (v / 256 ^ (n + 1)) :: beN (n + 1) (v % 256 ^ (n + 1))
        = (v / 256 ^ (n + 1) :: l) ++ [v % 256]
    rw [hl, Nat.mod_mod_of_dvd v (dvd_pow_self 256 (Nat.succ_ne_zero n)), List.cons_append]

/-- C7 (amended): for a transaction whose version's low byte is not `0xFF`,
`commit` returns `Ok` and deletes exactly the `TxnWrite(v_T, k)` keys present
in the store and the `TxnActive(v_T)` key, leaving every other key-value
pair — in particular every `Version` record — unchanged; for a version whose
low byte is `0xFF`, `commit` instead panics in the `scan_prefix` last-byte
increment and leaves the store unchanged, its `TxnWrite` keys not deleted,
which refutes the original unconditional claim. -/
theorem C7_commit_frame (st : TransactionState) (s : Eng) (hs : StoreWF s) (ht : st.WF) :
    (st.version % 256 ≠ 255 →
      ∃ s' : Eng, commit st s = (Res.ok (), s') ∧
        ∀ kv : List Nat × List Nat, kv ∈ s' ↔
          (kv ∈ s ∧ (∀ k, kv.1 ≠ (MvccKey.TxnWrite st.version k).encode) ∧
            kv.1 ≠ (MvccKey.TxnActive st.version).encode)) ∧
    (st.version % 256 = 255 → commit st s = (Res.panic, s)) := by
  have hv : st.version < 2 ^ 64 := by
    have h1 : st.version < 2 ^ 64 - 1 := ht.1
    omega
  have hv8 : st.version < 256 ^ 8 := by
    have h256 : (256 : Nat) ^ 8 = 2 ^ 64 := by norm_num
    omega
  obtain ⟨l, hl⟩ := beN_snoc 7 st.version hv8
  have hl8 : be8 st.version = l ++ [st.version % 256] := hl
  have hp : (MvccKeyPfx.TxnWrite st.version).encode
      = (2 :: l) ++ [st.version % 256] := by
    show 2 :: be8 st.version = (2 :: l) ++ [st.version % 256]
    rw [hl8, List.cons_append]
  constructor
  · intro hne
    have hinc : incLast ((MvccKeyPfx.TxnWrite st.version).encode)
        = some ((2 :: l) ++ [st.version % 256 + 1]) := by
      rw [hp, incLast_snoc, if_neg hne]
    have hqp : keyLt ((2 :: l) ++ [st.version % 256 + 1])
        ((MvccKeyPfx.TxnWrite st.version).encode) = false := by
      rw [hp, keyLt_append_same]
      simp [keyLt_cons, keyLt]
    have hsc : scanPfx s ((MvccKeyPfx.TxnWrite st.version).encode)
        = some (s.filter (fun kv =>
            !keyLt kv.1 ((MvccKeyPfx.TxnWrite st.version).encode)
              && keyLt kv.1 ((2 :: l) ++ [st.version % 256 + 1]))) := by
      rw [scanPfx_some _ _ _ hinc, hqp]
      simp
    have hred : commit st s = (.ok (),
        alRemove (((s.filter (fun kv =>
            !keyLt kv.1 ((MvccKeyPfx.TxnWrite st.version).encode
              ) && keyLt kv.1 ((2 :: l) ++ [st.version % 256 + 1]))).map
              Prod.fst).foldl alRemove s)
          (MvccKey.TxnActive st.version).encode) := by
      unfold commit
      rw [hsc]
    refine ⟨_, hred, ?_⟩
    intro kv
    rw [mem_alRemove, mem_foldl_alRemove]
    constructor
    · rintro ⟨⟨hins, hnotdks⟩, hneTA⟩
      refine ⟨hins, ?_, hneTA⟩
      intro k hkeq
      apply hnotdks
      have htest := (txnWrite_pfx_test hs hv hinc kv hins).mpr
        ⟨k, ?_, hkeq⟩
      · exact List.mem_map.mpr ⟨kv, List.mem_filter.mpr ⟨hins, htest⟩, rfl⟩
      · obtain ⟨mk, hwf, henc, -⟩ := hs.2 kv hins
        cases mk with
        | NextVersion => exact absurd (henc ▸ hkeq).symm (by simp [MvccKey.encode])
        | TxnActive v' => exact absurd (henc ▸ hkeq).symm (by simp [MvccKey.encode])
        | Version k' w => exact absurd (henc ▸ hkeq).symm (by simp [MvccKey.encode])
        | TxnWrite v' k' =>
          have he : (MvccKey.TxnWrite v' k').encode = (MvccKey.TxnWrite st.version k).encode := by
            rw [← henc, hkeq]
          have hv' : v' = st.version := by
            have h2 : (2 : Nat) :: (be8 v' ++ serialize_bytes k')
                = 2 :: (be8 st.version ++ serialize_bytes k) := he
            simp only [List.cons.injEq, true_and] at h2
            have hbe : be8 v' = be8 st.version :=
              List.append_inj_left h2 (by rw [be8_length, be8_length])
            exact beN_inj (lt_pow64 hwf.1) (lt_pow64 hv) hbe
          have hk'k : k' = k := by
            rw [hv'] at he
            exact txnWriteEnc_inj he
          rw [← hv', ← hk'k]
          exact hwf
    · rintro ⟨hins, hnoTW, hneTA⟩
      refine ⟨⟨hins, ?_⟩, hneTA⟩
      intro hmemdks
      obtain ⟨kv', hkv'mem, hfst⟩ := List.mem_map.mp hmemdks
      have hkv'f := List.mem_filter.mp hkv'mem
      have htest : (!keyLt kv'.1 ((MvccKeyPfx.TxnWrite st.version).encode)
          && keyLt kv'.1 ((2 :: l) ++ [st.version % 256 + 1])) = true := hkv'f.2
      obtain ⟨k, -, hk⟩ := (txnWrite_pfx_test hs hv hinc kv' hkv'f.1).mp htest
      exact hnoTW k (by rw [← hfst, hk])
  · intro h255
    have hinc : incLast ((MvccKeyPfx.TxnWrite st.version).encode) = none := by
      rw [hp, incLast_snoc, if_pos h255]
    unfold commit
    rw [scanPfx_none _ _ hinc]

theorem C7_commit_frame_witness :
    StoreWF [((MvccKey.TxnActive 1).encode, [])] ∧ TransactionState.WF ⟨1, []⟩ ∧
    (((1 : Nat) % 256 ≠ 255 →
      ∃ s' : Eng, commit ⟨1, []⟩ [((MvccKey.TxnActive 1).encode, [])] = (Res.ok (), s') ∧
        ∀ kv : List Nat × List Nat, kv ∈ s' ↔
          (kv ∈ [((MvccKey.TxnActive 1).encode, [])] ∧
            (∀ k, kv.1 ≠ (MvccKey.TxnWrite 1 k).encode) ∧
            kv.1 ≠ (MvccKey.TxnActive 1).encode)) ∧
    ((1 : Nat) % 256 = 255 →
      commit ⟨1, []⟩ [((MvccKey.TxnActive 1).encode, [])]
        = (Res.panic, [((MvccKey.TxnActive 1).encode, [])]))) := by
  have hs : StoreWF [((MvccKey.TxnActive 1).encode, [])] := by
    constructor
    · simp [alSorted]
    · intro kv hkv
      simp at hkv
      exact ⟨MvccKey.TxnActive 1, by norm_num [MvccKey.WF], by rw [hkv],
        fun k v h => by cases h⟩
  have ht : TransactionState.WF ⟨1, []⟩ := ⟨by norm_num [U64MAX], by simp⟩
  exact ⟨hs, ht, C7_commit_frame ⟨1, []⟩ [((MvccKey.TxnActive 1).encode, [])] hs ht⟩

/-- The store of the C7 counterexample: the single write-set marker
`TxnWrite(255, [1])` of a transaction with version `255`. -/
def c7Store : Eng := [((MvccKey.TxnWrite 255 [1]).encode, [])]

/-- C7 counterexample: the claim quantifies over every transaction, but for
version `255` — low byte `0xFF` — `commit` panics in the `scan_prefix`
last-byte increment before deleting anything: over a wellformed store holding
the `TxnWrite(255, [1])` marker, the wellformed transaction's `commit` panics
and returns the store unchanged, the marker still present, and no store in
which exactly the markers were deleted is ever produced. -/
theorem C7_commit_counterexample :
    StoreWF c7Store ∧ TransactionState.WF ⟨255, []⟩ ∧
    commit ⟨255, []⟩ c7Store = (Res.panic, c7Store) ∧
    ((MvccKey.TxnWrite 255 [1]).encode, ([] : List Nat)) ∈ (commit ⟨255, []⟩ c7Store).2 ∧
    ¬ ∃ s' : Eng, commit ⟨255, []⟩ c7Store = (Res.ok (), s') ∧
      ∀ kv : List Nat × List Nat, kv ∈ s' ↔
        (kv ∈ c7Store ∧ (∀ k, kv.1 ≠ (MvccKey.TxnWrite 255 k).encode) ∧
          kv.1 ≠ (MvccKey.TxnActive 255).encode) := by
  have hs : StoreWF c7Store := by
    constructor
    · simp [c7Store, alSorted]
    · intro kv hkv
      simp [c7Store] at hkv
      exact ⟨MvccKey.TxnWrite 255 [1], ⟨by norm_num, by decide⟩, by rw [hkv],
        fun k v h => by cases h⟩
  have ht : TransactionState.WF ⟨255, []⟩ := ⟨by norm_num [U64MAX], by simp⟩
  have hpanic : commit ⟨255, []⟩ c7Store = (Res.panic, c7Store) := by decide
  refine ⟨hs, ht, hpanic, ?_, ?_⟩
  · rw [hpanic]
    simp [c7Store]
  · rintro ⟨s', hok, -⟩
    rw [hpanic] at hok
    exact absurd hok (by simp)

/-- In a wellformed store, an entry whose key is an encoded `TxnWrite(v, k)`
with `v` in `u64` range is wellformed as that marker. -/
theorem storeWF_txnWriteKey {s : Eng} (hs : StoreWF s) {kv : List Nat × List Nat}
    (hkv : kv ∈ s) {v : Nat} {k : List Nat} (hv : v < 2 ^ 64)
    (hk : kv.1 = (MvccKey.TxnWrite v k).encode) : MvccKey.WF (MvccKey.TxnWrite v k) := by
  obtain ⟨mk, hwf, henc, -⟩ := hs.2 kv hkv
  have he : mk.encode = (MvccKey.TxnWrite v k).encode := by rw [← henc, hk]
  cases mk with
  | NextVersion => exact absurd he (by simp [MvccKey.encode])
  | TxnActive v' => exact absurd he (by simp [MvccKey.encode])
  | Version k' w => exact absurd he (by simp [MvccKey.encode])
  | TxnWrite v' k' =>
    have hv' : v' = v := by
      have h' : (2 : Nat) :: (be8 v' ++ serialize_bytes k')
          = 2 :: (be8 v ++ serialize_bytes k) := he
      simp only [List.cons.injEq, true_and] at h'
      have hbe : be8 v' = be8 v :=
        List.append_inj_left h' (by rw [be8_length, be8_length])
      exact beN_inj (lt_pow64 hwf.1) (lt_pow64 hv) hbe
    have hk' : k' = k := by
      rw [hv'] at he
      exact txnWriteEnc_inj he
    rw [← hv', ← hk']
    exact hwf

/-- The key-collection loop of `rollback` on a list of wellformed `TxnWrite`
entries: it succeeds, and the collected keys are exactly, per entry, the
corresponding `Version(k, ver)` key and the marker key itself. -/
theorem rollbackKeys_ok (ver : Nat) :
    ∀ entries : List (List Nat × List Nat),
      (∀ kv ∈ entries, ∃ k, MvccKey.WF (MvccKey.TxnWrite ver k) ∧
        kv.1 = (MvccKey.TxnWrite ver k).encode) →
      ∃ dks, rollbackKeys ver entries = .ok dks ∧
        ∀ x, x ∈ dks ↔ ∃ kv ∈ entries, ∃ k, kv.1 = (MvccKey.TxnWrite ver k).encode ∧
          (x = (MvccKey.Version k ver).encode ∨ x = kv.1) := by
  intro entries
  induction entries with
  | nil =>
    intro _
    exact ⟨[], rfl, by simp⟩
  | cons kv rest ih =>
    intro hall
    obtain ⟨k0, v0⟩ := kv
    obtain ⟨k, hwf, hkp⟩ := hall (k0, v0) (by simp)
    have hk' : k0 = (MvccKey.TxnWrite ver k).encode := hkp
    have hdec : MvccKey.decode k0 = .ok (MvccKey.TxnWrite ver k) [] := by
      rw [hk']
      unfold MvccKey.decode
      rw [deserialize_serialize hwf]
    obtain ⟨dks, hks, hmem⟩ := ih (fun kv' h' => hall kv' (List.mem_cons_of_mem _ h'))
    refine ⟨(MvccKey.Version k ver).encode :: k0 :: dks, ?_, ?_⟩
    · show rollbackKeys ver ((k0, v0) :: rest) = _
      unfold rollbackKeys
      rw [hdec, hks]
    · intro x
      simp only [List.mem_cons]
      constructor
      · rintro (rfl | hx2 | hx)
        · exact ⟨(k0, v0), Or.inl rfl, k, hk', Or.inl rfl⟩
        · exact ⟨(k0, v0), Or.inl rfl, k, hk', Or.inr hx2⟩
        · obtain ⟨kv', hm', hrest⟩ := (hmem x).mp hx
          exact ⟨kv', Or.inr hm', hrest⟩
      · rintro ⟨kv', hm', k₂, hk₂, hor⟩
        rcases hm' with rfl | hm''
        · have hkk : k₂ = k := by
            apply txnWriteEnc_inj (v := ver)
            rw [← hk₂]
            exact hk'
          rcases hor with rfl | rfl
          · left
            rw [hkk]
          · right
            left
            rfl
        · right
          right
          exact (hmem x).mpr ⟨kv', hm'', k₂, hk₂, hor⟩

/-- C6: after a successful `rollback(T)` — given that every `Version(k, v_T)`
record written by `T` left a `TxnWrite(v_T, k)` marker, which every write
path does — no `Version(k, v_T)` record, no `TxnWrite(v_T, ·)` marker and no
`TxnActive(v_T)` marker remains in the store, so nothing `T` wrote is ever
visible to a later transaction. -/
theorem C6_rollback (st : TransactionState) (s s' : Eng) (hs : StoreWF s) (ht : st.WF)
    (hmark : ∀ k pv, ((MvccKey.Version k st.version).encode, pv) ∈ s →
      ∃ mv, ((MvccKey.TxnWrite st.version k).encode, mv) ∈ s)
    (hok : rollback st s = (Res.ok (), s')) :
    ∀ k : List Nat,
      (∀ pv, ((MvccKey.Version k st.version).encode, pv) ∉ s') ∧
      (∀ mv, ((MvccKey.TxnWrite st.version k).encode, mv) ∉ s') ∧
      (∀ av, ((MvccKey.TxnActive st.version).encode, av) ∉ s') := by
  have hv : st.version < 2 ^ 64 := by
    have h1 : st.version < 2 ^ 64 - 1 := ht.1
    omega
  cases hsc : scanPfx s ((MvccKeyPfx.TxnWrite st.version).encode) with
  | none =>
    exfalso
    unfold rollback at hok
    rw [hsc] at hok
    exact absurd hok (by simp)
  | some entries =>
    obtain ⟨q, hinc, hqp, hes⟩ := scanPfx_eq_some.mp hsc
    have hallTW : ∀ kv ∈ entries, ∃ k, MvccKey.WF (MvccKey.TxnWrite st.version k) ∧
        kv.1 = (MvccKey.TxnWrite st.version k).encode := by
      intro kv hkv
      rw [hes, List.mem_filter] at hkv
      exact (txnWrite_pfx_test hs hv hinc kv hkv.1).mp hkv.2
    obtain ⟨dks, hks, hdks⟩ := rollbackKeys_ok st.version entries hallTW
    have hred1 : rollback st s = (match rollbackKeys st.version entries with
        | .ok dks => (.ok (), alRemove (dks.foldl alRemove s)
            (MvccKey.TxnActive st.version).encode)
        | .err e => (.err e, s)
        | .panic => (.panic, s)) := by
      unfold rollback
      rw [hsc]
    have hred : rollback st s = (.ok (), alRemove (dks.foldl alRemove s)
        (MvccKey.TxnActive st.version).encode) := by
      rw [hred1, hks]
    rw [hred] at hok
    injection hok with h1 h2
    subst h2
    intro k
    refine ⟨?_, ?_, ?_⟩
    · intro pv hmem'
      rw [mem_alRemove, mem_foldl_alRemove] at hmem'
      obtain ⟨⟨hins, hnot⟩, -⟩ := hmem'
      obtain ⟨mv, hmv⟩ := hmark k pv hins
      have hwfTW : MvccKey.WF (MvccKey.TxnWrite st.version k) :=
        storeWF_txnWriteKey hs hmv hv rfl
      have htest : (!keyLt ((MvccKey.TxnWrite st.version k).encode, mv).1
          ((MvccKeyPfx.TxnWrite st.version).encode)
          && keyLt ((MvccKey.TxnWrite st.version k).encode, mv).1 q) = true :=
        (txnWrite_pfx_test hs hv hinc _ hmv).mpr ⟨k, hwfTW, rfl⟩
      have hment : ((MvccKey.TxnWrite st.version k).encode, mv) ∈ entries := by
        rw [hes, List.mem_filter]
        exact ⟨hmv, htest⟩
      apply hnot
      exact (hdks _).mpr ⟨_, hment, k, rfl, Or.inl rfl⟩
    · intro mv hmem'
      rw [mem_alRemove, mem_foldl_alRemove] at hmem'
      obtain ⟨⟨hins, hnot⟩, -⟩ := hmem'
      have hwfTW : MvccKey.WF (MvccKey.TxnWrite st.version k) :=
        storeWF_txnWriteKey hs hins hv rfl
      have htest : (!keyLt ((MvccKey.TxnWrite st.version k).encode, mv).1
          ((MvccKeyPfx.TxnWrite st.version).encode)
          && keyLt ((MvccKey.TxnWrite st.version k).encode, mv).1 q) = true :=
        (txnWrite_pfx_test hs hv hinc _ hins).mpr ⟨k, hwfTW, rfl⟩
      have hment : ((MvccKey.TxnWrite st.version k).encode, mv) ∈ entries := by
        rw [hes, List.mem_filter]
        exact ⟨hins, htest⟩
      apply hnot
      exact (hdks _).mpr ⟨_, hment, k, rfl, Or.inr rfl⟩
    · intro av hmem'
      rw [mem_alRemove] at hmem'
      exact hmem'.2 rfl

/-- The concrete store used by the C6 and C7 witnesses. -/
def witnessStore : Eng := [((MvccKey.TxnActive 1).encode, [])]

theorem C6_rollback_witness :
    StoreWF witnessStore ∧ TransactionState.WF ⟨1, []⟩ ∧
    (∀ k pv, ((MvccKey.Version k 1).encode, pv) ∈ witnessStore →
      ∃ mv, ((MvccKey.TxnWrite 1 k).encode, mv) ∈ witnessStore) ∧
    rollback ⟨1, []⟩ witnessStore = (Res.ok (), []) ∧
    (∀ k : List Nat,
      (∀ pv, ((MvccKey.Version k 1).encode, pv) ∉ ([] : Eng)) ∧
      (∀ mv, ((MvccKey.TxnWrite 1 k).encode, mv) ∉ ([] : Eng)) ∧
      (∀ av, ((MvccKey.TxnActive 1).encode, av) ∉ ([] : Eng))) := by
  have hs : StoreWF witnessStore := by
    constructor
    · simp [alSorted, witnessStore]
    · intro kv hkv
      simp [witnessStore] at hkv
      exact ⟨MvccKey.TxnActive 1, by norm_num [MvccKey.WF], by rw [hkv],
        fun k v h => by cases h⟩
  have ht : TransactionState.WF ⟨1, []⟩ := ⟨by norm_num [U64MAX], by simp⟩
  have hmark : ∀ k pv, ((MvccKey.Version k 1).encode, pv)
      ∈ witnessStore →
      ∃ mv, ((MvccKey.TxnWrite 1 k).encode, mv) ∈ witnessStore := by
    intro k pv h
    simp only [witnessStore, List.mem_singleton, Prod.mk.injEq] at h
    exact absurd h.1 (by simp [MvccKey.encode])
  have hok : rollback ⟨1, []⟩ witnessStore = (Res.ok (), []) := by
    decide
  exact ⟨hs, ht, hmark, hok, C6_rollback ⟨1, []⟩ _ [] hs ht hmark hok⟩

/-! ## Claim C9 (corrected) -/

theorem next_bytes_badEscape (c : Nat) (rest : List Nat) (h0 : c ≠ 0) (h255 : c ≠ 255) :
    next_bytes (0 :: c :: rest) = .err (.Internal "Unexpected input") := by
  simp [next_bytes, h0, h255]

theorem next_bytes_noTerm : ∀ k : List Nat,
    next_bytes (escBytes k) = .err (.Internal "Unexpected input") := by
  intro k
  induction k with
  | nil => rfl
  | cons b bs ih =>
    by_cases hb : b = 0
    · subst hb
      simp [escBytes, escByte_zero, next_bytes, ih]
    · obtain ⟨n, rfl⟩ := Nat.exists_eq_succ_of_ne_zero hb
      simp [escBytes, escByte_ne hb, next_bytes, ih]

theorem next_bytes_truncTerm : ∀ k : List Nat,
    next_bytes (escBytes k ++ [0]) = .err (.Internal "Unexpected input") := by
  intro k
  induction k with
  | nil => rfl
  | cons b bs ih =>
    by_cases hb : b = 0
    · subst hb
      simp [escBytes, escByte_zero, next_bytes, ih]
    · obtain ⟨n, rfl⟩ := Nat.exists_eq_succ_of_ne_zero hb
      simp [escBytes, escByte_ne hb, next_bytes, ih]

/-- C9 counterexample: for the malformed stream `[3, 0, 5]` (a `Version` tag
whose byte-string payload has the escape byte `0x00` followed by `5`),
`deserialize_key` fails with `Error::Internal("Unexpected input")`
(`Deserializer::next_bytes`), not with an error of kind `Parse` as claimed. -/
theorem C9_counterexample :
    deserialize_mvcc_key [3, 0, 5] = .err (.Internal "Unexpected input") ∧
    ∀ msg, deserialize_mvcc_key [3, 0, 5] ≠ .err (.Parse msg) := by
  have h : deserialize_mvcc_key [3, 0, 5] = .err (.Internal "Unexpected input") := rfl
  refine ⟨h, ?_⟩
  intro msg hc
  rw [h] at hc
  exact absurd hc (by simp)

/-- C9 (amended): on malformed key byte streams `deserialize_key` fails with
an error of kind `Internal`, never `Parse` — an escape byte `0x00` followed
by anything other than `0x00`/`0xFF`, a missing terminator, a truncated
terminator, and an unknown variant tag all produce `Error::Internal` (from
`next_bytes` or the `serde::de::Error` impl, `src/error.rs:78-82`) — while a
truncated `u64` field or an empty input panics on an out-of-range slice in
`take_bytes` instead of returning an error. -/
theorem C9_deserialize_malformed :
    (∀ c rest, c ≠ 0 → c ≠ 255 →
      deserialize_mvcc_key (3 :: 0 :: c :: rest) = .err (.Internal "Unexpected input")) ∧
    (∀ k : List Nat, deserialize_mvcc_key (3 :: escBytes k)
      = .err (.Internal "Unexpected input")) ∧
    (∀ k : List Nat, deserialize_mvcc_key (3 :: (escBytes k ++ [0]))
      = .err (.Internal "Unexpected input")) ∧
    (∀ t rest, 4 ≤ t →
      deserialize_mvcc_key (t :: rest) = .err (.Internal "invalid variant index")) ∧
    (∀ rest : List Nat, rest.length < 8 → deserialize_mvcc_key (1 :: rest) = .panic) ∧
    deserialize_mvcc_key [] = .panic := by
  refine ⟨?_, ?_, ?_, ?_, ?_, rfl⟩
  · intro c rest h0 h255
    rw [show (3 :: 0 :: c :: rest : List Nat) = [3] ++ (0 :: c :: rest) from rfl,
      deserialize_mvcc_key, take_bytes_append [3] 1 _ rfl]
    simp [next_bytes_badEscape c rest h0 h255]
  · intro k
    rw [show (3 :: escBytes k : List Nat) = [3] ++ escBytes k from rfl,
      deserialize_mvcc_key, take_bytes_append [3] 1 _ rfl]
    simp [next_bytes_noTerm k]
  · intro k
    rw [show (3 :: (escBytes k ++ [0]) : List Nat) = [3] ++ (escBytes k ++ [0]) from rfl,
      deserialize_mvcc_key, take_bytes_append [3] 1 _ rfl]
    simp [next_bytes_truncTerm k]
  · intro t rest ht
    rw [show (t :: rest : List Nat) = [t] ++ rest from rfl,
      deserialize_mvcc_key, take_bytes_append [t] 1 _ rfl]
    simp [show t ≠ 0 by omega, show t ≠ 1 by omega, show t ≠ 2 by omega,
      show t ≠ 3 by omega]
  · intro rest hlen
    rw [show (1 :: rest : List Nat) = [1] ++ rest from rfl,
      deserialize_mvcc_key, take_bytes_append [1] 1 _ rfl]
    have hu : de_u64 rest = .panic := by
      unfold de_u64 take_bytes
      rw [if_neg (by omega)]
    simp [hu]

theorem C9_deserialize_malformed_witness :
    ((5 : Nat) ≠ 0 ∧ (5 : Nat) ≠ 255 ∧
      deserialize_mvcc_key (3 :: 0 :: 5 :: []) = .err (.Internal "Unexpected input")) ∧
    deserialize_mvcc_key (3 :: escBytes [7]) = .err (.Internal "Unexpected input") ∧
    deserialize_mvcc_key (3 :: (escBytes [7] ++ [0])) = .err (.Internal "Unexpected input") ∧
    ((4 : Nat) ≤ 9 ∧
      deserialize_mvcc_key (9 :: []) = .err (.Internal "invalid variant index")) ∧
    (([2, 2] : List Nat).length < 8 ∧ deserialize_mvcc_key (1 :: [2, 2]) = .panic) ∧
    deserialize_mvcc_key [] = .panic :=
  ⟨⟨by decide, by decide, C9_deserialize_malformed.1 5 [] (by decide) (by decide)⟩,
    C9_deserialize_malformed.2.1 [7],
    C9_deserialize_malformed.2.2.1 [7],
    ⟨by decide, C9_deserialize_malformed.2.2.2.1 9 [] (by decide)⟩,
    ⟨by decide, C9_deserialize_malformed.2.2.2.2.1 [2, 2] (by decide)⟩,
    C9_deserialize_malformed.2.2.2.2.2⟩

/-! ## The disk engine (`src/storage/disk.rs`) and claim C8

The log file is a byte list; a record is
`[key_len : u32 BE][val_len : i32 BE][key][value?]` with `val_len = -1`
(word `2^32 - 1`) marking a tombstone.  The in-memory key directory maps key
bytes to `(value_offset, value_length)`. -/

abbrev KeyDir := List (List Nat × (Nat × Nat))

/-- `u32::to_be_bytes`. -/
def be4 (n : Nat) : List Nat := beN 4 n

/-- The bytes `Log::write_entry` appends for one record; the `val_len` word
is `len` for `Some(value)` and the two's-complement word of `-1` for `None`. -/
def recBytes (key : List Nat) (value : Option (List Nat)) : List Nat :=
  be4 key.length
    ++ be4 (match value with | none => 2 ^ 32 - 1 | some v => v.length)
    ++ key
    ++ (match value with | none => [] | some v => v)

structure DiskEngine where
  keydir : KeyDir
  log : List Nat
deriving DecidableEq

/-- `DiskEngine::set`: append the record, point the directory at the value
bytes (`offset + size - val_size`). -/
def DiskEngine.set (e : DiskEngine) (key value : List Nat) : DiskEngine :=
  let offset := e.log.length
  let size := key.length + value.length + 8
  { keydir := alInsert e.keydir key (offset + size - value.length, value.length),
    log := e.log ++ recBytes key (some value) }

/-- `DiskEngine::delete`: append a tombstone record, drop the directory
entry. -/
def DiskEngine.delete (e : DiskEngine) (key : List Nat) : DiskEngine :=
  { keydir := alRemove e.keydir key,
    log := e.log ++ recBytes key none }

/-- `read_exact` at an absolute offset; `none` is the I/O error on a short
read. -/
def readExact (log : List Nat) (off n : Nat) : Option (List Nat) :=
  if off + n ≤ log.length then some ((log.drop off).take n) else none

/-- `Log::read_value`. -/
def read_value (log : List Nat) (offset len : Nat) : Option (List Nat) :=
  readExact log offset len

/-- `DiskEngine::get`: directory lookup, then a random-access read; the outer
`Option` is the I/O `Result`, the inner one the engine answer. -/
def DiskEngine.get (e : DiskEngine) (key : List Nat) : Option (Option (List Nat)) :=
  match alGet e.keydir key with
  | none => some none
  | some (offset, len) => (read_value e.log offset len).map some

/-- The scan loop of `Log::build_keydir`: read an 8-byte header and the key
at each offset, remove on `val_len = -1`, else insert
`key ↦ (offset + 8 + key_len, val_len)`; `none` is the fatal `Internal` on a
truncated header or key.  `val_size as u64` sign-extends a negative `i32`
word (unreachable for writer-produced logs, modelled exactly). -/
def buildLoop (log : List Nat) (offset : Nat) (kd : KeyDir) : Option KeyDir :=
  if _h : offset ≥ log.length then some kd
  else
    match readExact log offset 8 with
    | none => none
    | some hdr =>
      let key_size := beVal (hdr.take 4)
      let vword := beVal (hdr.drop 4)
      match readExact log (offset + 8) key_size with
      | none => none
      | some key =>
        if vword = 2 ^ 32 - 1 then
          buildLoop log (offset + key_size + 8) (alRemove kd key)
        else
          buildLoop log (offset + key_size
              + (if vword < 2 ^ 31 then vword else vword + (2 ^ 64 - 2 ^ 32)) + 8)
            (alInsert kd key (offset + 8 + key_size, vword))
termination_by log.length - offset
decreasing_by
  all_goals omega

/-- `Log::build_keydir`: replay from offset 0 with an empty directory. -/
def build_keydir (log : List Nat) : Option KeyDir := buildLoop log 0 []

/-- `DiskEngine::new` on an existing log file: rebuild the directory. -/
def DiskEngine.open (log : List Nat) : Option DiskEngine :=
  (build_keydir log).map (fun kd => ⟨kd, log⟩)

/-- Operations against the engine, for quantifying over histories. -/
inductive DOp where
  | set : List Nat → List Nat → DOp
  | del : List Nat → DOp

/-- Size limits inherent in the record format (`key.len() as u32`,
`value.len() as i32`). -/
def DOp.WF : DOp → Prop
  | .set k v => k.length < 2 ^ 32 ∧ v.length < 2 ^ 31
  | .del k => k.length < 2 ^ 32

def applyOp (e : DiskEngine) : DOp → DiskEngine
  | .set k v => e.set k v
  | .del k => e.delete k

/-- Run a history of operations against a fresh engine (empty log). -/
def applyOps (ops : List DOp) : DiskEngine := ops.foldl applyOp ⟨[], []⟩

def recOf : DOp → List Nat × Option (List Nat)
  | .set k v => (k, some v)
  | .del k => (k, none)

def recsBytes (rs : List (List Nat × Option (List Nat))) : List Nat :=
  (rs.map fun r => recBytes r.1 r.2).join

/-- What replaying a record sequence starting at a given absolute offset does
to the directory. -/
def kdReplay : List (List Nat × Option (List Nat)) → Nat → KeyDir → KeyDir
  | [], _, kd => kd
  | (k, none) :: rs, off, kd =>
    kdReplay rs (off + (recBytes k none).length) (alRemove kd k)
  | (k, some v) :: rs, off, kd =>
    kdReplay rs (off + (recBytes k (some v)).length)
      (alInsert kd k (off + 8 + k.length, v.length))

theorem recBytes_none_length (k : List Nat) : (recBytes k none).length = 8 + k.length := by
  simp [recBytes, be4, beN_length] <;> omega

theorem recBytes_some_length (k v : List Nat) :
    (recBytes k (some v)).length = 8 + k.length + v.length := by
  simp [recBytes, be4, beN_length] <;> omega

theorem readExact_at (pre x rest : List Nat) :
    readExact (pre ++ x ++ rest) pre.length x.length = some x := by
  unfold readExact
  rw [if_pos]
  · rw [List.append_assoc, List.drop_left, List.take_left]
  · rw [List.length_append, List.length_append]
    omega

theorem buildLoop_stop (log : List Nat) (offset : Nat) (kd : KeyDir)
    (h : log.length ≤ offset) : buildLoop log offset kd = some kd := by
  rw [buildLoop, dif_pos h]

theorem beVal_be4 {n : Nat} (h : n < 2 ^ 32) : beVal (be4 n) = n :=
  beVal_beN (by norm_num; omega)

/-- One tombstone step of `build_keydir` at a record boundary. -/
theorem buildLoop_step_none (pre k rest : List Nat) (kd : KeyDir)
    (hk : k.length < 2 ^ 32) :
    buildLoop (pre ++ recBytes k none ++ rest) pre.length kd
      = buildLoop (pre ++ recBytes k none ++ rest)
          (pre.length + (recBytes k none).length) (alRemove kd k) := by
  have hhdr : readExact (pre ++ recBytes k none ++ rest) pre.length 8
      = some (be4 k.length ++ be4 (2 ^ 32 - 1)) := by
    rw [show pre ++ recBytes k none ++ rest
        = pre ++ (be4 k.length ++ be4 (2 ^ 32 - 1)) ++ (k ++ rest) by
      simp [recBytes, List.append_assoc]]
    have := readExact_at pre (be4 k.length ++ be4 (2 ^ 32 - 1)) (k ++ rest)
    rwa [show (be4 k.length ++ be4 (2 ^ 32 - 1)).length = 8 by simp [be4, beN_length]]
      at this
  have htake : (be4 k.length ++ be4 (2 ^ 32 - 1)).take 4 = be4 k.length := by
    rw [show (4 : Nat) = (be4 k.length).length by simp [be4, beN_length], List.take_left]
  have hdrop : (be4 k.length ++ be4 (2 ^ 32 - 1)).drop 4 = be4 (2 ^ 32 - 1) := by
    rw [show (4 : Nat) = (be4 k.length).length by simp [be4, beN_length], List.drop_left]
  have hkey : readExact (pre ++ recBytes k none ++ rest) (pre.length + 8) k.length
      = some k := by
    rw [show pre ++ recBytes k none ++ rest
        = (pre ++ (be4 k.length ++ be4 (2 ^ 32 - 1))) ++ k ++ rest by
      simp [recBytes, List.append_assoc]]
    have := readExact_at (pre ++ (be4 k.length ++ be4 (2 ^ 32 - 1))) k rest
    rwa [show (pre ++ (be4 k.length ++ be4 (2 ^ 32 - 1))).length = pre.length + 8 by
      simp [be4, beN_length]] at this
  have hoff : pre.length < (pre ++ recBytes k none ++ rest).length := by
    rw [List.length_append, List.length_append, recBytes_none_length]
    omega
  rw [buildLoop, dif_neg (by omega), hhdr]
  simp only [htake, hdrop, beVal_be4 hk, beVal_be4 (show 2 ^ 32 - 1 < 2 ^ 32 by norm_num),
    hkey, if_true]
  rw [show pre.length + k.length + 8 = pre.length + (recBytes k none).length by
    rw [recBytes_none_length]; omega]

/-- One value-record step of `build_keydir` at a record boundary. -/
theorem buildLoop_step_some (pre k v rest : List Nat) (kd : KeyDir)
    (hk : k.length < 2 ^ 32) (hv : v.length < 2 ^ 31) :
    buildLoop (pre ++ recBytes k (some v) ++ rest) pre.length kd
      = buildLoop (pre ++ recBytes k (some v) ++ rest)
          (pre.length + (recBytes k (some v)).length)
          (alInsert kd k (pre.length + 8 + k.length, v.length)) := by
  have hv32 : v.length < 2 ^ 32 := by omega
  have hhdr : readExact (pre ++ recBytes k (some v) ++ rest) pre.length 8
      = some (be4 k.length ++ be4 v.length) := by
    rw [show pre ++ recBytes k (some v) ++ rest
        = pre ++ (be4 k.length ++ be4 v.length) ++ (k ++ (v ++ rest)) by
      simp [recBytes, List.append_assoc]]
    have := readExact_at pre (be4 k.length ++ be4 v.length) (k ++ (v ++ rest))
    rwa [show (be4 k.length ++ be4 v.length).length = 8 by simp [be4, beN_length]] at this
  have htake : (be4 k.length ++ be4 v.length).take 4 = be4 k.length := by
    rw [show (4 : Nat) = (be4 k.length).length by simp [be4, beN_length], List.take_left]
  have hdrop : (be4 k.length ++ be4 v.length).drop 4 = be4 v.length := by
    rw [show (4 : Nat) = (be4 k.length).length by simp [be4, beN_length], List.drop_left]
  have hkey : readExact (pre ++ recBytes k (some v) ++ rest) (pre.length + 8) k.length
      = some k := by
    rw [show pre ++ recBytes k (some v) ++ rest
        = (pre ++ (be4 k.length ++ be4 v.length)) ++ k ++ (v ++ rest) by
      simp [recBytes, List.append_assoc]]
    have := readExact_at (pre ++ (be4 k.length ++ be4 v.length)) k (v ++ rest)
    rwa [show (pre ++ (be4 k.length ++ be4 v.length)).length = pre.length + 8 by
      simp [be4, beN_length]] at this
  have hoff : pre.length < (pre ++ recBytes k (some v) ++ rest).length := by
    rw [List.length_append, List.length_append, recBytes_some_length]
    omega
  rw [buildLoop, dif_neg (by omega), hhdr]
  simp only [htake, hdrop, beVal_be4 hk, beVal_be4 hv32, hkey]
  rw [if_neg (by omega), if_pos hv,
    show pre.length + k.length + v.length + 8
      = pre.length + (recBytes k (some v)).length by rw [recBytes_some_length]; omega]

/-- Replaying a well-sized record sequence from any boundary reproduces
`kdReplay`. -/
theorem buildLoop_records : ∀ (rs : List (List Nat × Option (List Nat)))
    (pre : List Nat) (kd : KeyDir),
    (∀ r ∈ rs, r.1.length < 2 ^ 32 ∧ ∀ v, r.2 = some v → v.length < 2 ^ 31) →
    buildLoop (pre ++ recsBytes rs) pre.length kd = some (kdReplay rs pre.length kd) := by
  intro rs
  induction rs with
  | nil =>
    intro pre kd _
    rw [show recsBytes [] = [] from rfl, List.append_nil]
    rw [buildLoop_stop _ _ _ (le_refl _)]
    rfl
  | cons r rs ih =>
    intro pre kd hwf
    obtain ⟨k, val⟩ := r
    have h1 : pre ++ recsBytes ((k, val) :: rs) = pre ++ recBytes k val ++ recsBytes rs := by
      simp [recsBytes, List.append_assoc]
    have hk32 : k.length < 2 ^ 32 := (hwf (k, val) (by simp)).1
    have hihwf := fun r hr => hwf r (List.mem_cons_of_mem _ hr)
    cases val with
    | none =>
      rw [h1, buildLoop_step_none pre k (recsBytes rs) kd hk32]
      have h3 := ih (pre ++ recBytes k none) (alRemove kd k) hihwf
      rw [show pre.length + (recBytes k none).length = (pre ++ recBytes k none).length by
        simp]
      rw [h3]
      rw [show kdReplay ((k, none) :: rs) pre.length kd
        = kdReplay rs (pre.length + (recBytes k none).length) (alRemove kd k) from rfl]
      rw [show (pre ++ recBytes k none).length = pre.length + (recBytes k none).length by
        simp]
    | some v =>
      have hv31 : v.length < 2 ^ 31 := (hwf (k, some v) (by simp)).2 v rfl
      rw [h1, buildLoop_step_some pre k v (recsBytes rs) kd hk32 hv31]
      have h3 := ih (pre ++ recBytes k (some v))
        (alInsert kd k (pre.length + 8 + k.length, v.length)) hihwf
      rw [show pre.length + (recBytes k (some v)).length
        = (pre ++ recBytes k (some v)).length by simp]
      rw [h3]
      rw [show kdReplay ((k, some v) :: rs) pre.length kd
        = kdReplay rs (pre.length + (recBytes k (some v)).length)
            (alInsert kd k (pre.length + 8 + k.length, v.length)) from rfl]
      rw [show (pre ++ recBytes k (some v)).length
        = pre.length + (recBytes k (some v)).length by simp]

theorem alGet_alInsert {α : Type} (kd : List (List Nat × α)) (k : List Nat) (v : α) :
    alGet (alInsert kd k v) k = some v := by
  induction kd with
  | nil => simp [alInsert, alGet, List.find?]
  | cons kv rest ih =>
    obtain ⟨k', v'⟩ := kv
    by_cases h1 : keyLt k k' = true
    · simp [alInsert, h1, alGet, List.find?]
    · by_cases h2 : k = k'
      · subst h2
        simp [alInsert, keyLt_irrefl, alGet, List.find?]
      · have hne : (k' == k) = false := by
          simp
          exact fun h => h2 h.symm
        rw [show alInsert ((k', v') :: rest) k v = (k', v') :: alInsert rest k v by
          simp [alInsert, h1, h2]]
        show (((k', v') :: alInsert rest k v).find? (fun kv => kv.1 == k)).map (·.2) = some v
        rw [List.find?_cons_of_neg _ (by simp [hne])]
        exact ih

theorem alGet_alRemove {α : Type} (kd : List (List Nat × α)) (k : List Nat) :
    alGet (alRemove kd k) k = none := by
  unfold alGet alRemove
  rw [List.find?_eq_none.mpr]
  · rfl
  · intro kv hkv
    rw [List.mem_filter] at hkv
    have := hkv.2
    simp at this ⊢
    exact this

theorem foldl_applyOp_spec : ∀ (ops : List DOp) (e : DiskEngine),
    (ops.foldl applyOp e).log = e.log ++ recsBytes (ops.map recOf) ∧
    (ops.foldl applyOp e).keydir = kdReplay (ops.map recOf) e.log.length e.keydir := by
  intro ops
  induction ops with
  | nil =>
    intro e
    constructor <;> simp [recsBytes, kdReplay]
  | cons op ops ih =>
    intro e
    rw [List.foldl_cons]
    obtain ⟨hl, hkd⟩ := ih (applyOp e op)
    cases op with
    | set k v =>
      have hlog : (applyOp e (.set k v)).log = e.log ++ recBytes k (some v) := rfl
      have hkde : (applyOp e (.set k v)).keydir
          = alInsert e.keydir k (e.log.length + 8 + k.length, v.length) := by
        show alInsert e.keydir k
            (e.log.length + (k.length + v.length + 8) - v.length, v.length) = _
        rw [show e.log.length + (k.length + v.length + 8) - v.length
          = e.log.length + 8 + k.length by omega]
      constructor
      · rw [hl, hlog]
        simp [recsBytes, recOf, List.append_assoc]
      · rw [hkd, hkde, hlog]
        rw [show (e.log ++ recBytes k (some v)).length
          = e.log.length + (recBytes k (some v)).length by simp]
        rfl
    | del k =>
      have hlog : (applyOp e (.del k)).log = e.log ++ recBytes k none := rfl
      have hkde : (applyOp e (.del k)).keydir = alRemove e.keydir k := rfl
      constructor
      · rw [hl, hlog]
        simp [recsBytes, recOf, List.append_assoc]
      · rw [hkd, hkde, hlog]
        rw [show (e.log ++ recBytes k none).length
          = e.log.length + (recBytes k none).length by simp]
        rfl

/-- Replaying the log from offset 0 (as open/recovery does) reproduces the
incrementally maintained directory. -/
theorem build_keydir_applyOps (ops : List DOp) (hops : ∀ op ∈ ops, op.WF) :
    build_keydir (applyOps ops).log = some (applyOps ops).keydir := by
  have hwfr : ∀ r ∈ ops.map recOf,
      r.1.length < 2 ^ 32 ∧ ∀ v, r.2 = some v → v.length < 2 ^ 31 := by
    intro r hr
    obtain ⟨op, hop, rfl⟩ := List.mem_map.mp hr
    cases op with
    | set k' v' =>
      obtain ⟨h1, h2⟩ := hops _ hop
      exact ⟨h1, fun v hv => by
        rw [show (recOf (DOp.set k' v')).2 = some v' from rfl] at hv
        injection hv with hv
        rw [← hv]
        exact h2⟩
    | del k' =>
      exact ⟨hops _ hop, fun v hv => by
        rw [show (recOf (DOp.del k')).2 = none from rfl] at hv
        cases hv⟩
  obtain ⟨hl, hkd⟩ := foldl_applyOp_spec ops ⟨[], []⟩
  show build_keydir (ops.foldl applyOp ⟨[], []⟩).log = some (ops.foldl applyOp ⟨[], []⟩).keydir
  rw [hl, hkd]
  unfold build_keydir
  have := buildLoop_records (ops.map recOf) [] [] hwfr
  simpa using this

theorem diskGet_some {kd : KeyDir} {log key : List Nat} {off len : Nat}
    (h : alGet kd key = some (off, len)) :
    DiskEngine.get ⟨kd, log⟩ key = (read_value log off len).map some := by
  unfold DiskEngine.get
  rw [show (⟨kd, log⟩ : DiskEngine).keydir = kd from rfl, h]

theorem diskGet_none {kd : KeyDir} {log key : List Nat} (h : alGet kd key = none) :
    DiskEngine.get ⟨kd, log⟩ key = some none := by
  unfold DiskEngine.get
  rw [show (⟨kd, log⟩ : DiskEngine).keydir = kd from rfl, h]

/-- C8: the key directory rebuilt by replaying the log from offset 0 is
exactly the directory maintained incrementally by the `set`/`delete`
operations; hence after `set(k, v)` a fresh open of the log yields
`get(k) = Some(v)`, and after `delete(k)` it yields `None`.  (Key and value
sizes are bounded by the record format's `u32`/`i32` length fields.) -/
theorem C8_durability (ops : List DOp) (k v : List Nat)
    (hops : ∀ op ∈ ops, op.WF) (hk : k.length < 2 ^ 32) (hv : v.length < 2 ^ 31) :
    build_keydir (applyOps ops).log = some (applyOps ops).keydir ∧
    (∃ e, DiskEngine.open (applyOps (ops ++ [DOp.set k v])).log = some e ∧
      e.get k = some (some v)) ∧
    (∃ e, DiskEngine.open (applyOps (ops ++ [DOp.del k])).log = some e ∧
      e.get k = some none) := by
  refine ⟨build_keydir_applyOps ops hops, ?_, ?_⟩
  · have hops' : ∀ op ∈ ops ++ [DOp.set k v], op.WF := by
      intro op hop
      rcases List.mem_append.mp hop with h | h
      · exact hops op h
      · simp at h
        rw [h]
        exact ⟨hk, hv⟩
    have hbd := build_keydir_applyOps _ hops'
    refine ⟨⟨(applyOps (ops ++ [DOp.set k v])).keydir,
      (applyOps (ops ++ [DOp.set k v])).log⟩, ?_, ?_⟩
    · unfold DiskEngine.open
      rw [hbd]
      rfl
    · have happ : applyOps (ops ++ [DOp.set k v])
          = (applyOps ops).set k v := by
        unfold applyOps
        rw [List.foldl_append]
        rfl
      have hkd : ((applyOps ops).set k v).keydir
          = alInsert (applyOps ops).keydir k
              ((applyOps ops).log.length + 8 + k.length, v.length) := by
        show alInsert (applyOps ops).keydir k
            ((applyOps ops).log.length + (k.length + v.length + 8) - v.length, v.length) = _
        rw [show (applyOps ops).log.length + (k.length + v.length + 8) - v.length
          = (applyOps ops).log.length + 8 + k.length by omega]
      have hrv : read_value ((applyOps ops).set k v).log
          ((applyOps ops).log.length + 8 + k.length) v.length = some v := by
        have hlog : ((applyOps ops).set k v).log
            = ((applyOps ops).log ++ (be4 k.length ++ be4 v.length ++ k)) ++ v ++ [] := by
          show (applyOps ops).log ++ recBytes k (some v) = _
          simp [recBytes, List.append_assoc]
        rw [hlog]
        unfold read_value
        have := readExact_at ((applyOps ops).log ++ (be4 k.length ++ be4 v.length ++ k)) v []
        rwa [show ((applyOps ops).log ++ (be4 k.length ++ be4 v.length ++ k)).length
          = (applyOps ops).log.length + 8 + k.length by
            simp [be4, beN_length]
            omega] at this
      have halg : alGet (applyOps (ops ++ [DOp.set k v])).keydir k
          = some ((applyOps ops).log.length + 8 + k.length, v.length) := by
        rw [happ, hkd]
        exact alGet_alInsert _ _ _
      rw [diskGet_some halg, happ, hrv]
      rfl
  · have hops' : ∀ op ∈ ops ++ [DOp.del k], op.WF := by
      intro op hop
      rcases List.mem_append.mp hop with h | h
      · exact hops op h
      · simp at h
        rw [h]
        exact hk
    have hbd := build_keydir_applyOps _ hops'
    refine ⟨⟨(applyOps (ops ++ [DOp.del k])).keydir,
      (applyOps (ops ++ [DOp.del k])).log⟩, ?_, ?_⟩
    · unfold DiskEngine.open
      rw [hbd]
      rfl
    · have happ : applyOps (ops ++ [DOp.del k]) = (applyOps ops).delete k := by
        unfold applyOps
        rw [List.foldl_append]
        rfl
      have halg : alGet (applyOps (ops ++ [DOp.del k])).keydir k = none := by
        rw [happ]
        rw [show ((applyOps ops).delete k).keydir
          = alRemove (applyOps ops).keydir k from rfl]
        exact alGet_alRemove _ _
      exact diskGet_none halg

theorem C8_durability_witness :
    (∀ op ∈ ([DOp.set [1] [9]] : List DOp), op.WF) ∧ ([2] : List Nat).length < 2 ^ 32 ∧
    ([8] : List Nat).length < 2 ^ 31 ∧
    (build_keydir (applyOps [DOp.set [1] [9]]).log
        = some (applyOps [DOp.set [1] [9]]).keydir ∧
      (∃ e, DiskEngine.open (applyOps ([DOp.set [1] [9]] ++ [DOp.set [2] [8]])).log
          = some e ∧ e.get [2] = some (some [8])) ∧
      (∃ e, DiskEngine.open (applyOps ([DOp.set [1] [9]] ++ [DOp.del [2]])).log
          = some e ∧ e.get [2] = some none)) := by
  have h1 : ∀ op ∈ ([DOp.set [1] [9]] : List DOp), op.WF := by
    intro op hop
    simp at hop
    rw [hop]
    exact ⟨by norm_num, by norm_num⟩
  exact ⟨h1, by norm_num, by norm_num,
    C8_durability [DOp.set [1] [9]] [2] [8] h1 (by norm_num) (by norm_num)⟩

end RayDb
